import Mathlib

/-!
Verification of the text chunking and relevance ranking pipeline
(`chunkText` / `findRelevantChunks`).

The JavaScript source is embedded shallowly:

* strings are `List Char`; the ASCII fragment of the JS whitespace class
  `\s` is modelled by `isWs`, of `\w` by `isWordChar`, and `toLowerCase`
  by `Char.toLower` (the inputs of interest are ASCII);
* `String.prototype.replace` with the concrete patterns of the source
  (`/\r\n/g`, `/\s+/g`, `/ \n/g`), `trim`, `split(/\n+/)`, `split(/\s+/)`
  and `Array.prototype.join` are given as directly corresponding
  recursive functions (`replaceCrlf`, `collapseWs`, `replaceSpNl`,
  `trimChars`, `splitRuns`, `joinSep`);
* the oversized-paragraph `for` loop of `chunkText` advances by
  `chunkSize - overlap`, which is `0` in truncated `Nat` subtraction when
  `overlap ≥ chunkSize`, in which case the JS loop does not terminate;
  the loop is therefore written fuel-indexed (`windowLoop`), returning
  `none` exactly when the loop runs forever;
* the floating point `score` of the ranker is represented exactly by the
  pair `(scoreNum, scoreWc)` denoting `scoreNum / Real.sqrt scoreWc`
  (the raw score arithmetic of the source involves only sums of
  multiples of 1/2, which are exact); the comparisons the source
  performs on `score` are decided through `scoreKey`, the signed square
  of that value, which is a rational number — the agreement with the
  real-valued comparison is proved (`scoreKey_lt_iff` etc.).
-/

/-- ASCII fragment of the JS whitespace class `\s`. -/
def isWs (c : Char) : Bool :=
  c == ' ' || c == '\t' || c == '\n' || c == '\r' || c == '\x0b' || c == '\x0c'

/-- Embeds `text.replace(/\r\n/g, "\n")`: scanning left to right, each
occurrence of `"\r\n"` is replaced by `"\n"` and the scan resumes after
the replacement. -/
def replaceCrlf : List Char → List Char
  | [] => []
  | [c] => [c]
  | c :: d :: rest =>
    if c = '\r' ∧ d = '\n' then '\n' :: replaceCrlf rest
    else c :: replaceCrlf (d :: rest)

/-- Worker for `collapseWs`; the flag records whether the previous
character was whitespace (i.e. whether we are inside a run that has
already emitted its single space). -/
def collapseWsAux : Bool → List Char → List Char
  | _, [] => []
  | prevWs, c :: rest =>
    if isWs c then
      if prevWs then collapseWsAux true rest
      else ' ' :: collapseWsAux true rest
    else c :: collapseWsAux false rest

/-- Embeds `text.replace(/\s+/g, " ")`: every maximal whitespace run
becomes a single space. -/
def collapseWs (l : List Char) : List Char := collapseWsAux false l

/-- Embeds `text.replace(/ \n/g, "\n")`: scanning left to right, each
occurrence of `" \n"` is replaced by `"\n"` and the scan resumes after
the replacement. -/
def replaceSpNl : List Char → List Char
  | [] => []
  | [c] => [c]
  | c :: d :: rest =>
    if c = ' ' ∧ d = '\n' then '\n' :: replaceSpNl rest
    else c :: replaceSpNl (d :: rest)

/-- Embeds `String.prototype.trim` (on the ASCII fragment). -/
def trimChars (l : List Char) : List Char :=
  ((l.dropWhile isWs).reverse.dropWhile isWs).reverse

/-- Worker for `splitRuns`; `acc` is the reversed current field, the
flag records whether we are inside a separator run (in which case
further separator characters extend the run instead of emitting an
empty field). -/
def splitRunsAux (p : Char → Bool) : List Char → Bool → List Char → List (List Char)
  | acc, _, [] => [acc.reverse]
  | acc, inRun, c :: rest =>
    if p c then
      if inRun then splitRunsAux p acc true rest
      else acc.reverse :: splitRunsAux p [] true rest
    else splitRunsAux p (c :: acc) false rest

/-- Embeds `String.prototype.split` with a pattern matching maximal
runs of characters satisfying `p` (the source uses `split(/\n+/)` and
`split(/\s+/)`): separators are maximal runs, a leading run yields a
leading empty field and a trailing run a trailing empty field, exactly
as in JS. -/
def splitRuns (p : Char → Bool) (l : List Char) : List (List Char) :=
  splitRunsAux p [] false l

/-- Embeds `Array.prototype.join(sep)`. -/
def joinSep (sep : List Char) : List (List Char) → List Char
  | [] => []
  | [x] => x
  | x :: y :: rest => x ++ sep ++ joinSep sep (y :: rest)

/-- The chunk record produced by `chunkText`
(`{ content, chunkIndex, pageNumber }`). -/
structure Chunk where
  content : List Char
  chunkIndex : Nat
  pageNumber : Nat
deriving DecidableEq, Repr

/-- The mutable state of one `chunkText` call: the emitted `chunks`,
the pending paragraph buffer `currentChunk`, its running word count and
the next `chunkIndex`. -/
structure ChunkState where
  chunks : List Chunk
  currentChunk : List (List Char)
  currentWordCount : Nat
  chunkIndex : Nat
deriving DecidableEq, Repr

/-- The initial state of `chunkText` (lines 21–24 of the source). -/
def initState : ChunkState :=
  { chunks := [], currentChunk := [], currentWordCount := 0, chunkIndex := 0 }

/-- Embeds `pushChunk` (source lines 26–35): trim the content, drop it
silently when empty, otherwise append it with the next sequential
`chunkIndex` and `pageNumber` 0. -/
def pushChunk (st : ChunkState) (content : List Char) : ChunkState :=
  let finalContent := trimChars content
  if finalContent.isEmpty then st
  else
    { st with
      chunks := st.chunks ++ [{ content := finalContent, chunkIndex := st.chunkIndex, pageNumber := 0 }],
      chunkIndex := st.chunkIndex + 1 }

/-- `paragraph.trim().split(/\s+/)` (source line 38). -/
def paraWords (p : List Char) : List (List Char) :=
  splitRuns isWs (trimChars p)

/-- The two-character paragraph separator `"\n\n"` used by
`currentChunk.join("\n\n")`. -/
def nlnl : List Char := ['\n', '\n']

/-- Embeds the flushing of the pending buffer
(`pushChunk(currentChunk.join("\n\n")); currentChunk = []; currentWordCount = 0`,
source lines 41–45 and 70–72). -/
def flushBuffer (st : ChunkState) : ChunkState :=
  if st.currentChunk.isEmpty then st
  else
    { pushChunk st (joinSep nlnl st.currentChunk) with
      currentChunk := [], currentWordCount := 0 }

/-- Embeds the oversized-paragraph window loop (source lines 47–50):

    for (let i = 0; i < words.length; i += chunkSize - overlap) {
      pushChunk(words.slice(i, i + chunkSize).join(" "));
      if (i + chunkSize >= words.length) break;
    }

The loop is fuel-indexed: one unit of fuel is consumed per iteration,
and `none` is returned on exhaustion.  The callers pass fuel
`words.length + 1`, which is proved sufficient whenever the stride
`chunkSize - overlap` is positive; when the stride is zero (the JS loop
diverges) every fuel value is exhausted, so `none` models exactly the
non-terminating executions. -/
def windowLoop : Nat → List (List Char) → Nat → Nat → Nat → ChunkState → Option ChunkState
  | 0, _, _, _, _, _ => none
  | fuel + 1, words, chunkSize, overlap, i, st =>
    if i < words.length then
      let st1 := pushChunk st (joinSep [' '] ((words.drop i).take chunkSize))
      if words.length ≤ i + chunkSize then some st1
      else windowLoop fuel words chunkSize overlap (i + (chunkSize - overlap)) st1
    else some st

/-- Embeds the `for (const paragraph of paragraphs)` loop of `chunkText`
(source lines 37–68), threading the state through each paragraph. -/
def processParas (cs ov : Nat) : List (List Char) → ChunkState → Option ChunkState
  | [], st => some st
  | p :: rest, st =>
    let words := paraWords p
    if cs < words.length then
      match windowLoop (words.length + 1) words cs ov 0 (flushBuffer st) with
      | none => none
      | some st2 => processParas cs ov rest st2
    else if cs < st.currentWordCount + words.length ∧ st.currentChunk ≠ [] then
      let st1 := pushChunk st (joinSep nlnl st.currentChunk)
      let prevWords := splitRuns isWs (joinSep [' '] st.currentChunk)
      let k := min ov prevWords.length
      let overlapWords := if k = 0 then prevWords else prevWords.drop (prevWords.length - k)
      let overlapText := joinSep [' '] overlapWords
      processParas cs ov rest
        { st1 with
          currentChunk := if overlapText.isEmpty then [p] else [overlapText, p],
          currentWordCount := (splitRuns isWs overlapText).length + words.length }
    else
      processParas cs ov rest
        { st with
          currentChunk := st.currentChunk ++ [p],
          currentWordCount := st.currentWordCount + words.length }

/-- The normalisation pipeline of `chunkText` (source lines 11–15):

    text.replace(/\r\n/g, "\n").replace(/\s+/g, " ").replace(/ \n/g, "\n").trim()

Note that `replace(/\s+/g, " ")` also collapses every newline, so the
result never contains `'\n'`. -/
def cleanseText (text : List Char) : List Char :=
  trimChars (replaceSpNl (collapseWs (replaceCrlf text)))

/-- `cleanedText.split(/\n+/).filter(p => p.trim().length > 0)`
(source lines 17–19). -/
def paragraphsOf (text : List Char) : List (List Char) :=
  (splitRuns (fun c => c == '\n') (cleanseText text)).filter
    (fun p => !(trimChars p).isEmpty)

/-- Embeds `chunkText(text, chunkSize, overlap)` on character lists.
`none` models the non-terminating executions (possible only when
`overlap ≥ chunkSize`). -/
def chunkTextCore (text : List Char) (chunkSize overlap : Nat) : Option (List Chunk) :=
  if (trimChars text).isEmpty then some []
  else
    match processParas chunkSize overlap (paragraphsOf text) initState with
    | none => none
    | some st => some (flushBuffer st).chunks

/-- Embeds `chunkText` on Lean strings. -/
def chunkText (text : String) (chunkSize overlap : Nat) : Option (List Chunk) :=
  chunkTextCore text.data chunkSize overlap

/-- ASCII fragment of the JS word-character class `\w` (used by the
word-boundary assertion `\b`). -/
def isWordChar (c : Char) : Bool := c.isAlpha || c.isDigit || c == '_'

/-- Whether the character at index `i` of `c` exists and is a word
character (absent positions count as non-word, as for JS `\b`). -/
def isWordAt (c : List Char) (i : Nat) : Bool :=
  match c.get? i with
  | some ch => isWordChar ch
  | none => false

/-- The JS word-boundary assertion `\b` at position `i` of `c`: the
positions `i-1` and `i` disagree on being a word character. -/
def boundaryAt (c : List Char) (i : Nat) : Bool :=
  (if i = 0 then false else isWordAt c (i - 1)) != isWordAt c i

/-- Whether the regex `\b t \b` (with `t` a literal) matches `c` at
position `i`. -/
def exactMatchAt (t c : List Char) (i : Nat) : Bool :=
  boundaryAt c i && t.isPrefixOf (c.drop i) && boundaryAt c (i + t.length)

/-- Worker for `countExact`: scans positions `i, i+1, …, c.length`;
after a match the scan resumes at the end of the matched text, as a
global JS regex does (`max t.length 1` also reproduces the engine's
advance past an empty match).  Each iteration advances the position by
at least one, so the callers' fuel `c.length + 1` is never exhausted;
the recursion is on the fuel so that the definition reduces
structurally. -/
def countExactAux (t c : List Char) : Nat → Nat → Nat
  | 0, _ => 0
  | fuel + 1, i =>
    if c.length < i then 0
    else if exactMatchAt t c i then
      1 + countExactAux t c fuel (i + max t.length 1)
    else countExactAux t c fuel (i + 1)

/-- Embeds `(content.match(new RegExp(`\b${word}\b`, "g")) || []).length`
for a token free of regex metacharacters: the number of non-overlapping
whole-word occurrences of `t` in `c`. -/
def countExact (t c : List Char) : Nat :=
  countExactAux t c (c.length + 1) 0

/-- Worker for `countOccs`, fuel-indexed for the same reason as
`countExactAux` (each step removes at least one character, so fuel
`c.length + 1` always suffices). -/
def countOccsAux (t : List Char) : Nat → List Char → Nat
  | 0, _ => 0
  | _ + 1, [] => if t.isEmpty then 1 else 0
  | fuel + 1, c :: rest =>
    if t.isPrefixOf (c :: rest) then
      1 + countOccsAux t fuel (rest.drop (t.length - 1))
    else countOccsAux t fuel rest

/-- Embeds `(content.match(new RegExp(word, "g")) || []).length` for a
token free of regex metacharacters: the number of non-overlapping
occurrences of `t` in `c`, scanning left to right. -/
def countOccs (t c : List Char) : Nat :=
  countOccsAux t (c.length + 1) c

/-- Embeds `content.includes(w)`: `t` occurs as a contiguous substring
of `c`. -/
def includesTok (t c : List Char) : Bool :=
  c.tails.any (fun suf => t.isPrefixOf suf)

/-- The fixed stop-word set of `findRelevantChunks`
(source lines 87–108). -/
def stopWords : List (List Char) :=
  ["the", "is", "at", "which", "on", "an", "in", "with", "to", "for",
   "a", "and", "or", "of", "as", "by", "but", "this", "that", "it"].map String.data

/-- Embeds the query tokenisation (source lines 110–113):
lowercase, split on whitespace, drop tokens of length ≤ 2 and
stop words. -/
def queryWordsOf (query : String) : List (List Char) :=
  (splitRuns isWs (query.data.map Char.toLower)).filter
    (fun w => decide (2 < w.length) && !(stopWords.contains w))

/-- The regex metacharacters of JS pattern syntax.  The source
interpolates raw query tokens into `new RegExp(...)`; a token containing
one of these characters is not matched as literal text (and for many
tokens, e.g. `"c++"`, the constructor throws `SyntaxError`). -/
def regexSpecials : List Char :=
  ['\\', '^', '$', '.', '*', '+', '?', '(', ')', '[', ']', '\x7b', '\x7d', '|']

/-- A token that contains no regex metacharacter; for such tokens the
source's `new RegExp` patterns denote literal matching with word
boundaries, which `countExact`/`countOccs` embed. -/
def isLiteralToken (t : List Char) : Bool :=
  t.all (fun c => !(regexSpecials.contains c))

/-- The chunk shape consumed by `findRelevantChunks`
(`{ content, chunkIndex, pageNumber, id }`; the ranker places no
constraint on the numeric fields, so they are modelled generally). -/
structure RChunk where
  content : List Char
  chunkIndex : Int
  pageNumber : Int
  id : Option Nat
deriving DecidableEq, Repr

/-- The scored record built by the ranker (source lines 151–159).  The
two floating-point numbers of the source are represented exactly by
integers:

* `rawScore2` is twice the raw term-match score (every contribution of
  the source — `*3`, `*1.5`, `*2` — is a multiple of ½, so twice the
  score is a natural number and the floating-point arithmetic of the
  source is exact on it);
* the final `score = (rawScore2/2) / sqrt(contentWords) * (1 - idx/n * 0.1)`
  is the real number `scoreNum / (scoreDen * Real.sqrt scoreWc)` where
  `scoreNum = rawScore2 * (10*n - idx)`, `scoreDen = 20*n` and
  `scoreWc = contentWords`. -/
structure ScoredChunk where
  content : List Char
  chunkIndex : Int
  pageNumber : Int
  id : Option Nat
  scoreNum : Int
  scoreDen : Nat
  scoreWc : Nat
  rawScore2 : Nat
  matchedWords : Nat
deriving DecidableEq, Repr

/-- The real number denoted by the stored score representation; this
`Prop`-level definition names the positivity observation the source
makes on the floating-point `score`. -/
def ScorePos (s : ScoredChunk) : Prop :=
  0 < (s.scoreNum : ℝ) / (s.scoreDen * Real.sqrt s.scoreWc)

/-- Numerator of the signed square of the denoted score: with
`v = scoreNum / (scoreDen * sqrt scoreWc)`, the fraction
`keyNum s / keyDen s` equals `v * |v|` (lemma `key_cast`).  Since
`v ↦ v * |v|` is strictly monotone, comparing these integer fractions
decides the comparisons the source performs on the floating-point
`score`. -/
def keyNum (s : ScoredChunk) : Int :=
  if s.scoreDen = 0 ∨ s.scoreWc = 0 then 0
  else (if s.scoreNum < 0 then -1 else 1) * s.scoreNum ^ 2

/-- Denominator of the signed square of the denoted score; always
positive. -/
def keyDen (s : ScoredChunk) : Nat :=
  if s.scoreDen = 0 ∨ s.scoreWc = 0 then 1
  else s.scoreDen ^ 2 * s.scoreWc

/-- Decides `score a < score b` on the denoted real scores
(lemma `keyLt_iff`). -/
def keyLt (a b : ScoredChunk) : Bool :=
  keyNum a * keyDen b < keyNum b * keyDen a

/-- Embeds the per-chunk scoring closure (source lines 124–160): `qw`
are the surviving query tokens, `n` the total number of chunks and
`idx` the chunk's position in the input sequence.  The accumulation
mirrors the source loop on twice the score:
`score += exact*3` and `score += max(0, partial-exact)*1.5` become
`score2 += exact*6 + (partial - exact)*3` (truncated subtraction on ℕ
is exactly `max(0, ·)`), and the bonus `uniqueWordsFound * 2` becomes
`uniqueWordsFound * 4`. -/
def scoreChunk (qw : List (List Char)) (n idx : Nat) (chunk : RChunk) : ScoredChunk :=
  let content := chunk.content.map Char.toLower
  let contentWords := (splitRuns isWs content).length
  let score2 : Nat := qw.foldl
    (fun s w =>
      let exactMatches := countExact w content
      let partialMatches := countOccs w content
      s + exactMatches * 6 + (partialMatches - exactMatches) * 3)
    0
  let uniqueWordsFound := (qw.filter (fun w => includesTok w content)).length
  let score2 : Nat := if 1 < uniqueWordsFound then score2 + uniqueWordsFound * 4 else score2
  { content := chunk.content
    chunkIndex := chunk.chunkIndex
    pageNumber := chunk.pageNumber
    id := chunk.id
    scoreNum := (score2 : Int) * (10 * (n : Int) - (idx : Int))
    scoreDen := 20 * n
    scoreWc := contentWords
    rawScore2 := score2
    matchedWords := uniqueWordsFound }

/-- Embeds `chunks.map((chunk, index) => …)` as a recursion carrying the
index. -/
def scoreList (qw : List (List Char)) (n : Nat) : Nat → List RChunk → List ScoredChunk
  | _, [] => []
  | i, c :: rest => scoreChunk qw n i c :: scoreList qw n (i + 1) rest

/-- The sort comparator (source lines 164–169) as a `≤`-style boolean
relation for a stable sort: `rankLe a b` holds when the JS comparator
orders `a` at or before `b` — descending score (decided via `keyLt`),
ties by descending `matchedWords`, then ascending `chunkIndex`.  Since
`rankLe` is a total preorder, every stable sort (the insertion sort
used here, or the engine's stable `Array.sort`) produces the same
output. -/
def rankLe (a b : ScoredChunk) : Bool :=
  if keyLt b a then true
  else if keyLt a b then false
  else if b.matchedWords < a.matchedWords then true
  else if a.matchedWords < b.matchedWords then false
  else a.chunkIndex ≤ b.chunkIndex

/-- A record of the ranker's result list: the stop-word pass-through
path returns bare copies of the input records (`plain`), the scoring
path returns scored records (`scored`). -/
inductive RankedRecord where
  | plain (chunk : RChunk)
  | scored (chunk : ScoredChunk)
deriving DecidableEq, Repr

deriving instance DecidableEq for Except

/-- Embeds `findRelevantChunks(chunks, query, maxChunks)`
(source lines 84–171).

The source interpolates each surviving query token into
`new RegExp(...)` without escaping; when a token contains a regex
metacharacter the resulting behaviour is not literal matching (for
invalid patterns such as `"c++"` the constructor throws `SyntaxError`).
The model signals every such execution as `Except.error ()`; on the
`ok` side — all tokens literal — the embedding is exact. -/
def findRelevantChunks (chunks : List RChunk) (query : String) (maxChunks : Nat) :
    Except Unit (List RankedRecord) :=
  if chunks.isEmpty || query.data.isEmpty then .ok []
  else
    let queryWords := queryWordsOf query
    if queryWords.isEmpty then
      .ok ((chunks.take maxChunks).map .plain)
    else if queryWords.all isLiteralToken then
      let scoredChunks := scoreList queryWords chunks.length 0 chunks
      .ok ((((scoredChunks.filter (fun s => decide (0 < keyNum s))).insertionSort
        (fun a b => rankLe a b = true)).take maxChunks).map .scored)
    else .error ()

/-- The word sequence of the whitespace-normalised input text: the
non-empty fields obtained by whitespace-splitting the cleaned text.
Used to state the reconstruction property of the chunker. -/
def normalizedWords (text : List Char) : List (List Char) :=
  (splitRuns isWs (cleanseText text)).filter (fun f => !f.isEmpty)

/-- Concatenates a sequence of word lists after removing from every
list but the first its first `ov` words (the overlap fragment it shares
with its predecessor). -/
def flattenOverlap (ov : Nat) : List (List (List Char)) → List (List Char)
  | [] => []
  | w :: rest => w ++ (rest.map (fun x => x.drop ov)).flatten

/-- The chunks the window loop emits for an oversized paragraph with
word list `W`, starting at word offset `i` with `k` windows and first
`chunkIndex` `base`: window `j` starts at `i + j * (chunkSize - overlap)`
and holds the next `chunkSize` words joined by single spaces. -/
def windowChunks (W : List (List Char)) (cs ov base i k : Nat) : List Chunk :=
  (List.range k).map (fun j =>
    { content := joinSep [' '] ((W.drop (i + j * (cs - ov))).take cs),
      chunkIndex := base + j, pageNumber := 0 })

/-- The `chunkIndex` bookkeeping invariant of a `chunkText` state: the
next index equals the number of chunks emitted so far, and the emitted
indices are exactly `0, …, n-1` in order. -/
def IndexInv (st : ChunkState) : Prop :=
  st.chunkIndex = st.chunks.length ∧
    st.chunks.map (fun c => c.chunkIndex) = List.range st.chunks.length

/-- The real score of `a` is strictly below that of `b` (scores denote
`scoreNum / (scoreDen * sqrt scoreWc)`). -/
def ScoreLt (a b : ScoredChunk) : Prop :=
  (a.scoreNum : ℝ) / (a.scoreDen * Real.sqrt a.scoreWc) <
    (b.scoreNum : ℝ) / (b.scoreDen * Real.sqrt b.scoreWc)

/-- The real scores of `a` and `b` coincide. -/
def ScoreEq (a b : ScoredChunk) : Prop :=
  (a.scoreNum : ℝ) / (a.scoreDen * Real.sqrt a.scoreWc) =
    (b.scoreNum : ℝ) / (b.scoreDen * Real.sqrt b.scoreWc)

/-- The ordering the ranker's comparator realises on the real scores:
descending score, ties broken by higher `matchedWords`, remaining ties
by ascending `chunkIndex`. -/
def RankOrder (a b : ScoredChunk) : Prop :=
  ScoreLt b a ∨
    (ScoreEq a b ∧
      (b.matchedWords < a.matchedWords ∨
        (a.matchedWords = b.matchedWords ∧ a.chunkIndex ≤ b.chunkIndex)))

/-! ### Helper lemmas: `pushChunk` -/

theorem pushChunk_of_nil (st : ChunkState) (c : List Char) (h : trimChars c = []) :
    pushChunk st c = st := by
  simp [pushChunk, h]

theorem pushChunk_of_ne_nil (st : ChunkState) (c : List Char) (h : trimChars c ≠ []) :
    pushChunk st c =
      { st with
        chunks := st.chunks ++ [{ content := trimChars c, chunkIndex := st.chunkIndex, pageNumber := 0 }],
        chunkIndex := st.chunkIndex + 1 } := by
  simp [pushChunk, h]

/-! ### Helper lemmas: `splitRuns` -/

theorem splitRunsAux_no_sep (p : Char → Bool) :
    ∀ (l acc : List Char) (flag : Bool), (∀ c ∈ l, p c = false) →
      splitRunsAux p acc flag l = [acc.reverse ++ l] := by
  intro l
  induction l with
  | nil => intro acc flag _; simp [splitRunsAux]
  | cons c rest ih =>
    intro acc flag h
    have hc : p c = false := h c (by simp)
    simp only [splitRunsAux, hc, Bool.false_eq_true, if_false]
    rw [ih (c :: acc) false (fun x hx => h x (by simp [hx]))]
    simp

theorem splitRuns_no_sep (p : Char → Bool) (l : List Char) (h : ∀ c ∈ l, p c = false) :
    splitRuns p l = [l] := by
  simpa using splitRunsAux_no_sep p l [] false h

theorem splitRunsAux_sep_free (p : Char → Bool) :
    ∀ (l acc : List Char) (flag : Bool), (∀ c ∈ acc, p c = false) →
      ∀ f ∈ splitRunsAux p acc flag l, ∀ c ∈ f, p c = false := by
  intro l
  induction l with
  | nil =>
    intro acc flag hacc f hf c hc
    simp only [splitRunsAux, List.mem_singleton] at hf
    exact hacc c (by simpa [hf] using hc)
  | cons x rest ih =>
    intro acc flag hacc f hf c hc
    by_cases hx : p x = true
    · cases flag with
      | true =>
        simp only [splitRunsAux, hx, if_true] at hf
        exact ih acc true hacc f hf c hc
      | false =>
        simp only [splitRunsAux, hx, if_true] at hf
        rcases List.mem_cons.1 hf with hf | hf
        · exact hacc c (by simpa [hf] using hc)
        · exact ih [] true (by simp) f hf c hc
    · have hx' : p x = false := by simpa using hx
      simp only [splitRunsAux, hx', Bool.false_eq_true, if_false] at hf
      refine ih (x :: acc) false ?_ f hf c hc
      intro y hy
      rcases List.mem_cons.1 hy with hy | hy
      · simpa [hy] using hx'
      · exact hacc y hy

theorem splitRunsAux_ne_nil (p : Char → Bool) :
    ∀ (l acc : List Char) (flag : Bool),
      (l = [] → acc ≠ []) →
      (∀ x, l.getLast? = some x → p x = false) →
      (flag = false → acc = [] → ∀ x, l.head? = some x → p x = false) →
      ∀ f ∈ splitRunsAux p acc flag l, f ≠ [] := by
  intro l
  induction l with
  | nil =>
    intro acc flag h0 _ _ f hf
    simp only [splitRunsAux, List.mem_singleton] at hf
    subst hf
    simpa using h0 rfl
  | cons x rest ih =>
    intro acc flag h0 hlast hhead f hf
    by_cases hx : p x = true
    · have hrest : rest ≠ [] := by
        intro hr
        subst hr
        have := hlast x (by simp)
        simp [hx] at this
      have hlast' : ∀ y, rest.getLast? = some y → p y = false := by
        intro y hy
        apply hlast
        rcases List.exists_cons_of_ne_nil hrest with ⟨b, t, hbt⟩
        subst hbt
        simpa [List.getLast?_cons_cons] using hy
      cases flag with
      | true =>
        simp only [splitRunsAux, hx, if_true] at hf
        exact ih acc true (fun h => absurd h hrest) hlast' (by simp) f hf
      | false =>
        have hacc : acc ≠ [] := by
          intro ha
          have := hhead rfl ha x (by simp)
          simp [hx] at this
        simp only [splitRunsAux, hx, if_true] at hf
        rcases List.mem_cons.1 hf with hf | hf
        · subst hf; simpa using hacc
        · exact ih [] true (fun h => absurd h hrest) hlast' (by simp) f hf
    · have hx' : p x = false := by simpa using hx
      simp only [splitRunsAux, hx', Bool.false_eq_true, if_false] at hf
      refine ih (x :: acc) false (by simp) ?_ (by simp) f hf
      intro y hy
      cases rest with
      | nil => simp at hy
      | cons b t =>
        apply hlast
        rw [List.getLast?_cons_cons]
        exact hy

theorem splitRunsAux_append (p : Char → Bool) :
    ∀ (f l acc : List Char) (flag : Bool), (∀ c ∈ f, p c = false) →
      splitRunsAux p acc flag (f ++ l) =
        splitRunsAux p (f.reverse ++ acc) (if f.isEmpty then flag else false) l := by
  intro f
  induction f with
  | nil => intro l acc flag _; simp
  | cons c rest ih =>
    intro l acc flag h
    have hc : p c = false := h c (by simp)
    show splitRunsAux p acc flag (c :: (rest ++ l)) = _
    simp only [splitRunsAux, hc, Bool.false_eq_true, if_false]
    rw [ih l (c :: acc) false (fun x hx => h x (by simp [hx]))]
    by_cases hr : rest.isEmpty <;> simp [hr]

theorem splitRunsAux_true_eq_false (p : Char → Bool) (l : List Char)
    (h : ∀ x, l.head? = some x → p x = false) :
    splitRunsAux p [] true l = splitRunsAux p [] false l := by
  cases l with
  | nil => rfl
  | cons c rest =>
    have hc : p c = false := h c (by simp)
    simp [splitRunsAux, hc]

/-! ### Helper lemmas: `joinSep` -/

theorem getLast?_append_right {α : Type} (l₁ l₂ : List α) (h : l₂ ≠ []) :
    (l₁ ++ l₂).getLast? = l₂.getLast? := by
  rw [List.getLast?_append]
  match hl : l₂.getLast? with
  | some y => simp
  | none =>
    rcases List.exists_cons_of_ne_nil h with ⟨b, t, hbt⟩
    subst hbt
    rw [List.getLast?_eq_getLast _ (by simp)] at hl
    cases hl

theorem joinSep_clean (ws : List (List Char)) (hws : ws ≠ [])
    (h : ∀ f ∈ ws, f ≠ [] ∧ ∀ c ∈ f, isWs c = false) :
    joinSep [' '] ws ≠ [] ∧
      (∀ x, (joinSep [' '] ws).head? = some x → isWs x = false) ∧
      (∀ x, (joinSep [' '] ws).getLast? = some x → isWs x = false) := by
  induction ws with
  | nil => exact absurd rfl hws
  | cons f rest ih =>
    rcases h f (by simp) with ⟨hf0, hfc⟩
    cases rest with
    | nil =>
      refine ⟨by simpa [joinSep] using hf0, ?_, ?_⟩
      · intro x hx
        apply hfc
        simp only [joinSep] at hx
        exact List.mem_of_mem_head? hx
      · intro x hx
        apply hfc
        simp only [joinSep] at hx
        exact List.mem_of_mem_getLast? hx
    | cons g rest' =>
      have hrest : g :: rest' ≠ [] := by simp
      rcases ih hrest (fun f hf => h f (by simp [hf])) with ⟨hj0, _, hjl⟩
      have hj : joinSep [' '] (f :: g :: rest') = f ++ [' '] ++ joinSep [' '] (g :: rest') := rfl
      constructor
      · rw [hj]
        simp [hj0]
      constructor
      · intro x hx
        rw [hj] at hx
        apply hfc
        rcases List.exists_cons_of_ne_nil hf0 with ⟨b, t, hbt⟩
        subst hbt
        simp only [List.cons_append, List.head?_cons, Option.some.injEq] at hx
        simp [hx]
      · intro x hx
        rw [hj, List.append_assoc, getLast?_append_right _ _ (by simp [hj0])] at hx
        rw [getLast?_append_right _ _ hj0] at hx
        exact hjl x hx

/-! ### Helper lemmas: `trimChars` -/

theorem dropWhile_head_not (p : Char → Bool) (l : List Char) :
    ∀ x, (l.dropWhile p).head? = some x → p x = false := by
  intro x hx
  have h := List.head?_dropWhile_not p l
  rw [hx] at h
  exact h

theorem trimChars_eq_nil_iff (l : List Char) :
    trimChars l = [] ↔ ∀ c ∈ l, isWs c = true := by
  unfold trimChars
  rw [List.reverse_eq_nil_iff, List.dropWhile_eq_nil_iff]
  constructor
  · intro h c hc
    by_cases hw : isWs c = true
    · exact hw
    · exfalso
      have hmem : c ∈ l.dropWhile isWs := by
        have hsplit := List.takeWhile_append_dropWhile isWs l
        rcases List.mem_append.1 (hsplit ▸ hc) with hmem | hmem
        · exact absurd (List.mem_takeWhile_imp hmem) hw
        · exact hmem
      exact hw (h c (by simpa using hmem))
  · intro h c hc
    exact h c ((List.dropWhile_sublist isWs).subset (List.mem_reverse.1 hc))

theorem trimChars_head? (l : List Char) :
    ∀ x, (trimChars l).head? = some x → isWs x = false := by
  intro x hx
  unfold trimChars at hx
  rw [List.head?_reverse] at hx
  have hne : ((l.dropWhile isWs).reverse).dropWhile isWs ≠ [] := by
    intro h0
    rw [h0] at hx
    cases hx
  rcases List.dropWhile_suffix (l := (l.dropWhile isWs).reverse) isWs with ⟨pre, hpre⟩
  have h2 : ((l.dropWhile isWs).reverse).getLast? = some x := by
    rw [← hpre, getLast?_append_right _ _ hne]
    exact hx
  rw [List.getLast?_reverse] at h2
  exact dropWhile_head_not isWs l x h2

theorem trimChars_getLast? (l : List Char) :
    ∀ x, (trimChars l).getLast? = some x → isWs x = false := by
  intro x hx
  unfold trimChars at hx
  rw [List.getLast?_reverse] at hx
  exact dropWhile_head_not isWs ((l.dropWhile isWs).reverse) x hx

theorem trimChars_of_clean (l : List Char)
    (hh : ∀ x, l.head? = some x → isWs x = false)
    (hl : ∀ x, l.getLast? = some x → isWs x = false) :
    trimChars l = l := by
  have h1 : l.dropWhile isWs = l := by
    cases l with
    | nil => rfl
    | cons c rest =>
      have hc : isWs c = false := hh c rfl
      simp [List.dropWhile_cons, hc]
  have h2 : l.reverse.dropWhile isWs = l.reverse := by
    cases hr : l.reverse with
    | nil => rfl
    | cons c rest =>
      have hc : isWs c = false := by
        apply hl
        rw [← List.head?_reverse, hr]
        rfl
      simp [List.dropWhile_cons, hc]
  unfold trimChars
  rw [h1, h2, List.reverse_reverse]

theorem mem_trimChars (l : List Char) : ∀ x ∈ trimChars l, x ∈ l := by
  intro x hx
  unfold trimChars at hx
  rw [List.mem_reverse] at hx
  have hx2 := (List.dropWhile_sublist isWs).subset hx
  rw [List.mem_reverse] at hx2
  exact (List.dropWhile_sublist isWs).subset hx2

theorem filter_nonWs_dropWhile (l : List Char) :
    (l.dropWhile isWs).filter (fun c => !isWs c) = l.filter (fun c => !isWs c) := by
  conv_rhs => rw [← List.takeWhile_append_dropWhile isWs l]
  rw [List.filter_append]
  have : (l.takeWhile isWs).filter (fun c => !isWs c) = [] := by
    rw [List.filter_eq_nil_iff]
    intro a ha
    simp [List.mem_takeWhile_imp ha]
  rw [this, List.nil_append]

theorem filter_nonWs_trimChars (l : List Char) :
    (trimChars l).filter (fun c => !isWs c) = l.filter (fun c => !isWs c) := by
  unfold trimChars
  rw [List.filter_reverse, filter_nonWs_dropWhile, List.filter_reverse,
    List.reverse_reverse, filter_nonWs_dropWhile]

/-! ### Helper lemmas: normalisation -/

theorem filter_nonWs_replaceCrlf :
    ∀ l : List Char, (replaceCrlf l).filter (fun c => !isWs c) = l.filter (fun c => !isWs c)
  | [] => rfl
  | [c] => rfl
  | c :: d :: rest => by
    by_cases h : c = '\r' ∧ d = '\n'
    · rcases h with ⟨hc, hd⟩
      subst hc; subst hd
      have ihr := filter_nonWs_replaceCrlf rest
      have e1 : replaceCrlf ('\r' :: '\n' :: rest) = '\n' :: replaceCrlf rest := rfl
      have h1 : (!isWs '\r') = false := rfl
      have h2 : (!isWs '\n') = false := rfl
      rw [e1, List.filter_cons, List.filter_cons, List.filter_cons, h1, h2]
      simp [ihr]
    · have ihr := filter_nonWs_replaceCrlf (d :: rest)
      simp only [replaceCrlf, h, if_false]
      rw [List.filter_cons, List.filter_cons, ihr]

theorem filter_nonWs_replaceSpNl :
    ∀ l : List Char, (replaceSpNl l).filter (fun c => !isWs c) = l.filter (fun c => !isWs c)
  | [] => rfl
  | [c] => rfl
  | c :: d :: rest => by
    by_cases h : c = ' ' ∧ d = '\n'
    · rcases h with ⟨hc, hd⟩
      subst hc; subst hd
      have ihr := filter_nonWs_replaceSpNl rest
      have e1 : replaceSpNl (' ' :: '\n' :: rest) = '\n' :: replaceSpNl rest := rfl
      have h1 : (!isWs ' ') = false := rfl
      have h2 : (!isWs '\n') = false := rfl
      rw [e1, List.filter_cons, List.filter_cons, List.filter_cons, h1, h2]
      simp [ihr]
    · have ihr := filter_nonWs_replaceSpNl (d :: rest)
      simp only [replaceSpNl, h, if_false]
      rw [List.filter_cons, List.filter_cons, ihr]

theorem mem_replaceSpNl :
    ∀ (l : List Char), ∀ x ∈ replaceSpNl l, x ∈ l
  | [] => by simp [replaceSpNl]
  | [c] => by simp [replaceSpNl]
  | c :: d :: rest => by
    intro x hx
    by_cases h : c = ' ' ∧ d = '\n'
    · rcases h with ⟨hc, hd⟩
      subst hc; subst hd
      rw [show replaceSpNl (' ' :: '\n' :: rest) = '\n' :: replaceSpNl rest from rfl] at hx
      rcases List.mem_cons.1 hx with hx | hx
      · simp [hx]
      · have := mem_replaceSpNl rest x hx
        simp [this]
    · simp only [replaceSpNl, h, if_false] at hx
      rcases List.mem_cons.1 hx with hx | hx
      · simp [hx]
      · have := mem_replaceSpNl (d :: rest) x hx
        simpa using List.mem_cons_of_mem c this

theorem filter_nonWs_collapseWsAux :
    ∀ (l : List Char) (flag : Bool),
      (collapseWsAux flag l).filter (fun c => !isWs c) = l.filter (fun c => !isWs c) := by
  intro l
  induction l with
  | nil => intro flag; rfl
  | cons c rest ih =>
    intro flag
    by_cases hc : isWs c = true
    · cases flag with
      | true => simp [collapseWsAux, hc, List.filter_cons, ih]
      | false =>
        have : isWs ' ' = true := by decide
        simp [collapseWsAux, hc, List.filter_cons, this, ih]
    · have hc' : isWs c = false := by simpa using hc
      simp [collapseWsAux, hc', List.filter_cons, ih]

theorem mem_collapseWsAux :
    ∀ (l : List Char) (flag : Bool) (x : Char),
      x ∈ collapseWsAux flag l → x = ' ' ∨ (x ∈ l ∧ isWs x = false) := by
  intro l
  induction l with
  | nil => intro flag x hx; simp [collapseWsAux] at hx
  | cons c rest ih =>
    intro flag x hx
    by_cases hc : isWs c = true
    · cases flag with
      | true =>
        simp only [collapseWsAux, hc, if_true] at hx
        rcases ih true x hx with h | ⟨h1, h2⟩
        · exact Or.inl h
        · exact Or.inr ⟨by simp [h1], h2⟩
      | false =>
        simp only [collapseWsAux, hc, if_true] at hx
        rcases List.mem_cons.1 hx with hx | hx
        · exact Or.inl hx
        · rcases ih true x hx with h | ⟨h1, h2⟩
          · exact Or.inl h
          · exact Or.inr ⟨by simp [h1], h2⟩
    · have hc' : isWs c = false := by simpa using hc
      simp only [collapseWsAux, hc', Bool.false_eq_true, if_false] at hx
      rcases List.mem_cons.1 hx with hx | hx
      · subst hx
        exact Or.inr ⟨by simp, hc'⟩
      · rcases ih false x hx with h | ⟨h1, h2⟩
        · exact Or.inl h
        · exact Or.inr ⟨by simp [h1], h2⟩

theorem noNl_cleanseText (text : List Char) : '\n' ∉ cleanseText text := by
  intro hmem
  have h1 : ('\n' : Char) ∈ replaceSpNl (collapseWs (replaceCrlf text)) :=
    mem_trimChars _ _ hmem
  have h2 : ('\n' : Char) ∈ collapseWs (replaceCrlf text) :=
    mem_replaceSpNl _ _ h1
  rcases mem_collapseWsAux _ false _ h2 with h | ⟨_, h⟩
  · cases h
  · simp [isWs] at h

theorem cleanseText_trimmed (text : List Char) :
    trimChars (cleanseText text) = cleanseText text := by
  unfold cleanseText
  apply trimChars_of_clean
  · exact trimChars_head? _
  · exact trimChars_getLast? _

theorem filter_nonWs_cleanseText (text : List Char) :
    (cleanseText text).filter (fun c => !isWs c) = text.filter (fun c => !isWs c) := by
  unfold cleanseText collapseWs
  rw [filter_nonWs_trimChars, filter_nonWs_replaceSpNl, filter_nonWs_collapseWsAux,
    filter_nonWs_replaceCrlf]

theorem trimChars_nil_iff_filter (l : List Char) :
    trimChars l = [] ↔ l.filter (fun c => !isWs c) = [] := by
  rw [trimChars_eq_nil_iff, List.filter_eq_nil_iff]
  constructor
  · intro h a ha
    simp [h a ha]
  · intro h a ha
    have := h a ha
    simpa using this

theorem cleanseText_nil_iff (text : List Char) :
    cleanseText text = [] ↔ trimChars text = [] := by
  constructor
  · intro h
    rw [trimChars_nil_iff_filter, ← filter_nonWs_cleanseText, h]
    rfl
  · intro h
    by_contra hne
    rcases List.exists_cons_of_ne_nil hne with ⟨c, t, hct⟩
    have hc : isWs c = false := by
      apply trimChars_head? (replaceSpNl (collapseWs (replaceCrlf text)))
      show (cleanseText text).head? = some c
      rw [hct]; rfl
    have hcf : c ∈ (cleanseText text).filter (fun x => !isWs x) := by
      rw [List.mem_filter]
      exact ⟨by simp [hct], by simp [hc]⟩
    rw [filter_nonWs_cleanseText] at hcf
    rw [trimChars_nil_iff_filter] at h
    rw [h] at hcf
    cases hcf

theorem paragraphsOf_eq (text : List Char) (h : trimChars text ≠ []) :
    paragraphsOf text = [cleanseText text] := by
  have hcl : cleanseText text ≠ [] := fun hc => h ((cleanseText_nil_iff text).1 hc)
  have hnn : ∀ c ∈ cleanseText text, (c == '\n') = false := by
    intro c hc
    have : c ≠ '\n' := fun he => noNl_cleanseText text (he ▸ hc)
    simpa using this
  unfold paragraphsOf
  rw [splitRuns_no_sep _ _ hnn]
  simp [cleanseText_trimmed, hcl]

/-- The word list of the (single) cleaned paragraph, with its fields
non-empty and whitespace-free. -/
theorem cleanse_words_clean (text : List Char) (h : trimChars text ≠ []) :
    ∀ f ∈ splitRuns isWs (cleanseText text), f ≠ [] ∧ ∀ c ∈ f, isWs c = false := by
  have hcl : cleanseText text ≠ [] := fun hc => h ((cleanseText_nil_iff text).1 hc)
  intro f hf
  constructor
  · refine splitRunsAux_ne_nil isWs (cleanseText text) [] false ?_ ?_ ?_ f hf
    · intro hc; exact absurd hc hcl
    · intro x hx
      exact trimChars_getLast? (replaceSpNl (collapseWs (replaceCrlf text))) x hx
    · intro _ _ x hx
      exact trimChars_head? (replaceSpNl (collapseWs (replaceCrlf text))) x hx
  · exact splitRunsAux_sep_free isWs (cleanseText text) [] false (by simp) f hf

theorem splitRuns_joinSep (ws : List (List Char)) (hws : ws ≠ [])
    (h : ∀ f ∈ ws, f ≠ [] ∧ ∀ c ∈ f, isWs c = false) :
    splitRuns isWs (joinSep [' '] ws) = ws := by
  induction ws with
  | nil => exact absurd rfl hws
  | cons f rest ih =>
    rcases h f (by simp) with ⟨hf0, hfc⟩
    cases rest with
    | nil => simpa [joinSep] using splitRuns_no_sep isWs f hfc
    | cons g rest' =>
      have hrest : ∀ x ∈ g :: rest', x ≠ [] ∧ ∀ c ∈ x, isWs c = false :=
        fun x hx => h x (by simp [hx])
      rcases joinSep_clean (g :: rest') (by simp) hrest with ⟨hj0, hjh, _⟩
      have step1 : splitRuns isWs (joinSep [' '] (f :: g :: rest')) =
          splitRunsAux isWs f.reverse false (' ' :: joinSep [' '] (g :: rest')) := by
        unfold splitRuns
        have hj : joinSep [' '] (f :: g :: rest') = f ++ (' ' :: joinSep [' '] (g :: rest')) := by
          simp [joinSep]
        rw [hj, splitRunsAux_append isWs f _ [] false hfc]
        have hfe : f.isEmpty = false := by simpa using hf0
        simp [hfe]
      have step2 : splitRunsAux isWs f.reverse false (' ' :: joinSep [' '] (g :: rest')) =
          f :: splitRunsAux isWs [] true (joinSep [' '] (g :: rest')) := by
        have hsp : isWs ' ' = true := by decide
        simp [splitRunsAux, hsp]
      rw [step1, step2, splitRunsAux_true_eq_false isWs _ hjh]
      have hih := ih (by simp) hrest
      unfold splitRuns at hih
      rw [hih]

/-! ### Helper lemmas: index bookkeeping (`IndexInv`) -/

theorem pushChunk_inv (st : ChunkState) (c : List Char) (h : IndexInv st) :
    IndexInv (pushChunk st c) := by
  by_cases hc : trimChars c = []
  · rwa [pushChunk_of_nil st c hc]
  · rw [pushChunk_of_ne_nil st c hc]
    rcases h with ⟨h1, h2⟩
    constructor
    · simp [h1]
    · simp only [List.map_append, List.length_append, List.map_cons, List.map_nil,
        List.length_cons, List.length_nil]
      rw [h2, h1]
      rw [List.range_succ]

theorem flushBuffer_inv (st : ChunkState) (h : IndexInv st) :
    IndexInv (flushBuffer st) := by
  unfold flushBuffer
  by_cases hb : st.currentChunk.isEmpty
  · simpa [hb] using h
  · simp only [hb, Bool.false_eq_true, if_false]
    have := pushChunk_inv st (joinSep nlnl st.currentChunk) h
    exact this

theorem windowLoop_inv (words : List (List Char)) (cs ov : Nat) :
    ∀ (fuel i : Nat) (st st' : ChunkState),
      windowLoop fuel words cs ov i st = some st' → IndexInv st → IndexInv st' := by
  intro fuel
  induction fuel with
  | zero => intro i st st' h; cases h
  | succ m ih =>
    intro i st st' h hinv
    unfold windowLoop at h
    by_cases hi : i < words.length
    · simp only [hi, if_true] at h
      by_cases hbrk : words.length ≤ i + cs
      · simp only [hbrk, if_true, Option.some.injEq] at h
        subst h
        exact pushChunk_inv st _ hinv
      · simp only [hbrk, if_false] at h
        exact ih _ _ _ h (pushChunk_inv st _ hinv)
    · simp only [hi, if_false, Option.some.injEq] at h
      subst h
      exact hinv

theorem processParas_inv (cs ov : Nat) :
    ∀ (ps : List (List Char)) (st st' : ChunkState),
      processParas cs ov ps st = some st' → IndexInv st → IndexInv st' := by
  intro ps
  induction ps with
  | nil =>
    intro st st' h hinv
    simp only [processParas, Option.some.injEq] at h
    subst h
    exact hinv
  | cons p rest ih =>
    intro st st' h hinv
    unfold processParas at h
    by_cases hbig : cs < (paraWords p).length
    · simp only [hbig, if_true] at h
      cases hw : windowLoop ((paraWords p).length + 1) (paraWords p) cs ov 0 (flushBuffer st) with
      | none => rw [hw] at h; cases h
      | some st2 =>
        rw [hw] at h
        exact ih st2 st' h (windowLoop_inv _ _ _ _ _ _ _ hw (flushBuffer_inv st hinv))
    · simp only [hbig, if_false] at h
      by_cases hover : cs < st.currentWordCount + (paraWords p).length ∧ st.currentChunk ≠ []
      · rw [if_pos hover] at h
        refine ih _ st' h ?_
        have := pushChunk_inv st (joinSep nlnl st.currentChunk) hinv
        exact this
      · rw [if_neg hover] at h
        exact ih _ st' h hinv

/-! ### Helper lemmas: termination of the window loop -/

theorem windowLoop_some (words : List (List Char)) (cs ov : Nat) (hov : ov < cs) :
    ∀ (fuel i : Nat) (st : ChunkState), 1 ≤ fuel → words.length + 1 ≤ fuel + i →
      ∃ st', windowLoop fuel words cs ov i st = some st' := by
  intro fuel
  induction fuel with
  | zero => intro i st h1 _; omega
  | succ m ih =>
    intro i st _ hfi
    unfold windowLoop
    by_cases hi : i < words.length
    · simp only [hi, if_true]
      by_cases hbrk : words.length ≤ i + cs
      · simp only [hbrk, if_true]
        exact ⟨_, rfl⟩
      · simp only [hbrk, if_false]
        refine ih (i + (cs - ov)) _ (by omega) (by omega)
    · simp only [hi, if_false]
      exact ⟨_, rfl⟩

theorem processParas_some (cs ov : Nat) (hov : ov < cs) :
    ∀ (ps : List (List Char)) (st : ChunkState),
      ∃ st', processParas cs ov ps st = some st' := by
  intro ps
  induction ps with
  | nil => intro st; exact ⟨st, rfl⟩
  | cons p rest ih =>
    intro st
    unfold processParas
    by_cases hbig : cs < (paraWords p).length
    · simp only [hbig, if_true]
      rcases windowLoop_some (paraWords p) cs ov hov ((paraWords p).length + 1) 0
        (flushBuffer st) (by omega) (by omega) with ⟨st2, hw⟩
      rw [hw]
      exact ih st2
    · simp only [hbig, if_false]
      by_cases hover : cs < st.currentWordCount + (paraWords p).length ∧ st.currentChunk ≠ []
      · rw [if_pos hover]
        exact ih _
      · rw [if_neg hover]
        exact ih _

/-! ### Helper lemmas: characterisation of the window loop -/

theorem windowChunks_zero (W : List (List Char)) (cs ov base i : Nat) :
    windowChunks W cs ov base i 0 = [] := rfl

theorem windowChunks_succ (W : List (List Char)) (cs ov base i k : Nat) :
    windowChunks W cs ov base i (k + 1) =
      { content := joinSep [' '] ((W.drop i).take cs), chunkIndex := base, pageNumber := 0 } ::
        windowChunks W cs ov (base + 1) (i + (cs - ov)) k := by
  unfold windowChunks
  rw [List.range_succ_eq_map, List.map_cons, List.map_map]
  congr 1
  · simp
  · apply List.map_congr_left
    intro j _
    have h1 : i + Nat.succ j * (cs - ov) = i + (cs - ov) + j * (cs - ov) := by
      rw [Nat.succ_mul]; omega
    have h2 : base + Nat.succ j = base + 1 + j := by omega
    simp only [Function.comp_apply, h1, h2]

theorem windowLoop_spec (W : List (List Char)) (cs ov : Nat) (hov : ov < cs)
    (hW : ∀ f ∈ W, f ≠ [] ∧ ∀ c ∈ f, isWs c = false) :
    ∀ (fuel i : Nat) (st : ChunkState), 1 ≤ fuel → W.length + 1 ≤ fuel + i →
      ∃ (k : Nat) (st2 : ChunkState),
        windowLoop fuel W cs ov i st = some st2 ∧
        st2.currentChunk = st.currentChunk ∧
        st2.currentWordCount = st.currentWordCount ∧
        st2.chunkIndex = st.chunkIndex + k ∧
        st2.chunks = st.chunks ++ windowChunks W cs ov st.chunkIndex i k ∧
        (k = 0 ↔ W.length ≤ i) ∧
        (∀ j, j < k → i + j * (cs - ov) < W.length) ∧
        (∀ j, j + 1 < k → i + j * (cs - ov) + cs < W.length) ∧
        (∀ j, j + 1 = k → W.length ≤ i + j * (cs - ov) + cs) := by
  intro fuel
  induction fuel with
  | zero => intro i st h1 _; exact absurd h1 (by omega)
  | succ m ih =>
    intro i st _ hfi
    by_cases hi : i < W.length
    · have hd : W.drop i ≠ [] := by
        intro h0
        rw [List.drop_eq_nil_iff] at h0
        omega
      have hslice_ne : (W.drop i).take cs ≠ [] := by
        rcases List.exists_cons_of_ne_nil hd with ⟨a, t, hat⟩
        rw [hat]
        cases cs with
        | zero => omega
        | succ cs' => simp [List.take_succ_cons]
      have hcleanF : ∀ f ∈ (W.drop i).take cs, f ≠ [] ∧ ∀ c ∈ f, isWs c = false := by
        intro f hf
        exact hW f ((List.drop_sublist i W).subset ((List.take_sublist cs _).subset hf))
      rcases joinSep_clean _ hslice_ne hcleanF with ⟨hj_ne, hj_h, hj_l⟩
      have htrim : trimChars (joinSep [' '] ((W.drop i).take cs)) =
          joinSep [' '] ((W.drop i).take cs) := trimChars_of_clean _ hj_h hj_l
      have hpush : pushChunk st (joinSep [' '] ((W.drop i).take cs)) =
          { st with
            chunks := st.chunks ++
              [{ content := joinSep [' '] ((W.drop i).take cs),
                 chunkIndex := st.chunkIndex, pageNumber := 0 }],
            chunkIndex := st.chunkIndex + 1 } := by
        rw [pushChunk_of_ne_nil st _ (by rw [htrim]; exact hj_ne), htrim]
      by_cases hbrk : W.length ≤ i + cs
      · refine ⟨1, pushChunk st (joinSep [' '] ((W.drop i).take cs)),
          ?_, ?_, ?_, ?_, ?_, ?_, ?_, ?_, ?_⟩
        · unfold windowLoop
          simp [hi, hbrk]
        · rw [hpush]
        · rw [hpush]
        · rw [hpush]
        · rw [hpush, windowChunks_succ, windowChunks_zero]
        · constructor
          · intro h; cases h
          · intro h; omega
        · intro j hj
          have hj0 : j = 0 := by omega
          subst hj0
          simpa using hi
        · intro j hj
          omega
        · intro j hj
          have hj0 : j = 0 := by omega
          subst hj0
          simpa using hbrk
      · rcases ih (i + (cs - ov)) (pushChunk st (joinSep [' '] ((W.drop i).take cs)))
          (by omega) (by omega) with ⟨k', st2, hw, hcc, hcw, hci, hch, hk0, hin, hlt, hlast⟩
        have hk1 : 1 ≤ k' := by
          by_contra hk
          have : k' = 0 := by omega
          subst this
          have := hk0.1 rfl
          omega
        refine ⟨k' + 1, st2, ?_, ?_, ?_, ?_, ?_, ?_, ?_, ?_, ?_⟩
        · unfold windowLoop
          simp only [hi, if_true, hbrk, if_false]
          exact hw
        · rw [hcc, hpush]
        · rw [hcw, hpush]
        · rw [hci, hpush]
          show st.chunkIndex + 1 + k' = st.chunkIndex + (k' + 1)
          omega
        · rw [hch, hpush]
          show st.chunks ++ _ ++ windowChunks W cs ov (st.chunkIndex + 1) (i + (cs - ov)) k' =
            st.chunks ++ windowChunks W cs ov st.chunkIndex i (k' + 1)
          rw [windowChunks_succ, List.append_assoc]
          rfl
        · constructor
          · intro h; cases h
          · intro h; omega
        · intro j hj
          cases j with
          | zero => simpa using hi
          | succ j' =>
            have := hin j' (by omega)
            rw [Nat.succ_mul]
            omega
        · intro j hj
          cases j with
          | zero =>
            simp only [Nat.zero_mul, Nat.add_zero]
            omega
          | succ j' =>
            have := hlt j' (by omega)
            rw [Nat.succ_mul]
            omega
        · intro j hj
          have hjk : j = k' := by omega
          rcases Nat.exists_eq_add_of_le hk1 with ⟨k'', hk''⟩
          have hla := hlast k'' (by omega)
          have hj2 : j * (cs - ov) = k'' * (cs - ov) + (cs - ov) := by
            rw [hjk, hk'', Nat.add_mul, Nat.one_mul]
            omega
          omega
    · refine ⟨0, st, ?_, rfl, rfl, by omega, by simp [windowChunks_zero], ?_, ?_, ?_, ?_⟩
      · unfold windowLoop
        simp [hi]
      · constructor
        · intro _; omega
        · intro _; rfl
      · intro j hj; omega
      · intro j hj; omega
      · intro j hj; omega

/-! ### Helper lemmas: structure of a full `chunkText` run -/

theorem flushBuffer_of_nil (st : ChunkState) (h : st.currentChunk = []) :
    flushBuffer st = st := by
  unfold flushBuffer
  rw [h]
  rfl

theorem chunkTextCore_of_blank (text : List Char) (cs ov : Nat)
    (ht : trimChars text = []) : chunkTextCore text cs ov = some [] := by
  unfold chunkTextCore
  rw [if_pos (by simpa using ht)]

theorem chunkTextCore_single_small (text : List Char) (cs ov : Nat)
    (ht : trimChars text ≠ [])
    (hsmall : (splitRuns isWs (cleanseText text)).length ≤ cs) :
    chunkTextCore text cs ov =
      some [{ content := cleanseText text, chunkIndex := 0, pageNumber := 0 }] := by
  have hcl : cleanseText text ≠ [] := fun hc => ht ((cleanseText_nil_iff text).1 hc)
  have hw : paraWords (cleanseText text) = splitRuns isWs (cleanseText text) := by
    unfold paraWords
    rw [cleanseText_trimmed]
  unfold chunkTextCore
  rw [if_neg (by simpa using ht), paragraphsOf_eq text ht]
  have hstep : processParas cs ov [cleanseText text] initState =
      some (⟨[], [cleanseText text], (paraWords (cleanseText text)).length, 0⟩ : ChunkState) := by
    unfold processParas
    rw [if_neg (by rw [hw]; omega)]
    rw [if_neg (by simp [initState])]
    unfold processParas
    simp [initState]
  rw [hstep]
  show some (flushBuffer ⟨[], [cleanseText text], (paraWords (cleanseText text)).length, 0⟩).chunks = _
  unfold flushBuffer
  rw [if_neg (by simp [hcl])]
  have hjoin : joinSep nlnl [cleanseText text] = cleanseText text := rfl
  rw [hjoin, pushChunk_of_ne_nil _ _ (by rw [cleanseText_trimmed]; exact hcl), cleanseText_trimmed]
  rfl

theorem chunkTextCore_single_big (text : List Char) (cs ov : Nat) (hov : ov < cs)
    (ht : trimChars text ≠ [])
    (hbig : cs < (splitRuns isWs (cleanseText text)).length) :
    ∃ k, 2 ≤ k ∧
      chunkTextCore text cs ov =
        some (windowChunks (splitRuns isWs (cleanseText text)) cs ov 0 0 k) ∧
      (∀ j, j < k → j * (cs - ov) < (splitRuns isWs (cleanseText text)).length) ∧
      (∀ j, j + 1 < k → j * (cs - ov) + cs < (splitRuns isWs (cleanseText text)).length) ∧
      (∀ j, j + 1 = k →
        (splitRuns isWs (cleanseText text)).length ≤ j * (cs - ov) + cs) := by
  set W := splitRuns isWs (cleanseText text) with hWdef
  have hw : paraWords (cleanseText text) = W := by
    unfold paraWords
    rw [cleanseText_trimmed, hWdef]
  have hWclean : ∀ f ∈ W, f ≠ [] ∧ ∀ c ∈ f, isWs c = false := cleanse_words_clean text ht
  rcases windowLoop_spec W cs ov hov hWclean (W.length + 1) 0 initState (by omega) (by omega)
    with ⟨k, st2, hwl, hcc, hcw, hci, hch, hk0, hin, hlt, hlast⟩
  have hk2 : 2 ≤ k := by
    have hk0' : k ≠ 0 := by
      intro h
      have := hk0.1 h
      omega
    have hk1' : k ≠ 1 := by
      intro h
      have := hlast 0 (by omega)
      simp only [Nat.zero_mul, Nat.zero_add] at this
      omega
    omega
  refine ⟨k, hk2, ?_, ?_, ?_, ?_⟩
  · unfold chunkTextCore
    rw [if_neg (by simpa using ht), paragraphsOf_eq text ht]
    have hstep : processParas cs ov [cleanseText text] initState = some st2 := by
      unfold processParas
      rw [if_pos (by rw [hw]; omega)]
      have hfl : flushBuffer initState = initState := flushBuffer_of_nil initState rfl
      rw [hw, hfl, hwl]
      rfl
    rw [hstep]
    show some (flushBuffer st2).chunks = _
    rw [flushBuffer_of_nil st2 (by rw [hcc]; rfl), hch]
    rfl
  · intro j hj
    have := hin j hj
    omega
  · intro j hj
    have := hlt j hj
    omega
  · intro j hj
    have := hlast j hj
    omega

/-! ### Helper lemmas: window contents and reconstruction -/

theorem paraWords_clean (p : List Char) (hne : trimChars p ≠ []) :
    ∀ f ∈ paraWords p, f ≠ [] ∧ ∀ c ∈ f, isWs c = false := by
  intro f hf
  constructor
  · refine splitRunsAux_ne_nil isWs (trimChars p) [] false (fun h => absurd h hne)
      (trimChars_getLast? p) ?_ f hf
    intro _ _
    exact trimChars_head? p
  · exact splitRunsAux_sep_free isWs (trimChars p) [] false (by simp) f hf

theorem slice_ne_nil (W : List (List Char)) (cs i : Nat) (hi : i < W.length)
    (hcs : 1 ≤ cs) : (W.drop i).take cs ≠ [] := by
  have hd : W.drop i ≠ [] := by
    intro h0
    rw [List.drop_eq_nil_iff] at h0
    omega
  rcases List.exists_cons_of_ne_nil hd with ⟨a, t, hat⟩
  rw [hat]
  cases cs with
  | zero => omega
  | succ cs' => simp [List.take_succ_cons]

theorem windowChunk_words (W : List (List Char)) (cs i : Nat)
    (hW : ∀ f ∈ W, f ≠ [] ∧ ∀ c ∈ f, isWs c = false)
    (hi : i < W.length) (hcs : 1 ≤ cs) :
    splitRuns isWs (joinSep [' '] ((W.drop i).take cs)) = (W.drop i).take cs := by
  apply splitRuns_joinSep _ (slice_ne_nil W cs i hi hcs)
  intro f hf
  exact hW f ((List.drop_sublist i W).subset ((List.take_sublist cs _).subset hf))

theorem join_drop_slices (W : List (List Char)) (cs ov : Nat) (hov : ov < cs) :
    ∀ (k i : Nat), 1 ≤ k →
      (∀ j, j + 1 < k → i + j * (cs - ov) + cs < W.length) →
      (∀ j, j + 1 = k → W.length ≤ i + j * (cs - ov) + cs) →
      ((List.range k).map
        (fun j => ((W.drop (i + j * (cs - ov))).take cs).drop ov)).flatten =
        W.drop (i + ov) := by
  intro k
  induction k with
  | zero => intro i h1 _ _; omega
  | succ k' ih =>
    intro i _ hlt hlast
    by_cases hk : k' = 0
    · subst hk
      have hfin := hlast 0 rfl
      simp only [Nat.zero_mul, Nat.add_zero] at hfin
      show (List.map _ [0]).flatten = _
      simp only [List.map_cons, List.map_nil, List.flatten_cons, List.flatten_nil,
        List.append_nil, Nat.zero_mul, Nat.add_zero]
      rw [List.drop_take, List.drop_drop]
      apply List.take_of_length_le
      rw [List.length_drop]
      omega
    · have hk1 : 1 ≤ k' := by omega
      rw [List.range_succ_eq_map, List.map_cons, List.map_map, List.flatten_cons]
      have hmap : (List.range k').map
          ((fun j => ((W.drop (i + j * (cs - ov))).take cs).drop ov) ∘ Nat.succ) =
          (List.range k').map
            (fun j => ((W.drop (i + (cs - ov) + j * (cs - ov))).take cs).drop ov) := by
        apply List.map_congr_left
        intro j _
        simp only [Function.comp_apply]
        have : i + Nat.succ j * (cs - ov) = i + (cs - ov) + j * (cs - ov) := by
          rw [Nat.succ_mul]; omega
        rw [this]
      rw [hmap]
      have hlt' : ∀ j, j + 1 < k' → i + (cs - ov) + j * (cs - ov) + cs < W.length := by
        intro j hj
        have := hlt (j + 1) (by omega)
        rw [Nat.succ_mul] at this
        omega
      have hlast' : ∀ j, j + 1 = k' → W.length ≤ i + (cs - ov) + j * (cs - ov) + cs := by
        intro j hj
        have := hlast (j + 1) (by omega)
        rw [Nat.succ_mul] at this
        omega
      rw [ih (i + (cs - ov)) hk1 hlt' hlast']
      simp only [Nat.zero_mul, Nat.add_zero]
      rw [List.drop_take, List.drop_drop]
      have harr : i + (cs - ov) + ov = i + ov + (cs - ov) := by omega
      have hdd : List.drop (i + ov + (cs - ov)) W =
          List.drop (cs - ov) (List.drop (i + ov) W) := by
        rw [List.drop_drop]
      rw [harr, hdd]
      exact List.take_append_drop _ _

theorem flattenOverlap_windowChunks (W : List (List Char)) (cs ov : Nat) (hov : ov < cs)
    (hW : ∀ f ∈ W, f ≠ [] ∧ ∀ c ∈ f, isWs c = false) (k : Nat) (hk : 2 ≤ k)
    (hin : ∀ j, j < k → j * (cs - ov) < W.length)
    (hlt : ∀ j, j + 1 < k → j * (cs - ov) + cs < W.length)
    (hlast : ∀ j, j + 1 = k → W.length ≤ j * (cs - ov) + cs) :
    flattenOverlap ov
      ((windowChunks W cs ov 0 0 k).map (fun c => splitRuns isWs c.content)) = W := by
  have hwords : (windowChunks W cs ov 0 0 k).map (fun c => splitRuns isWs c.content) =
      (List.range k).map (fun j => (W.drop (j * (cs - ov))).take cs) := by
    unfold windowChunks
    rw [List.map_map]
    apply List.map_congr_left
    intro j hj
    have hj' : j < k := List.mem_range.1 hj
    simp only [Function.comp_apply]
    have h0 : 0 + j * (cs - ov) = j * (cs - ov) := by omega
    rw [h0]
    exact windowChunk_words W cs _ hW (hin j hj') (by omega)
  rw [hwords]
  obtain ⟨k'', rfl⟩ : ∃ k'', k = k'' + 1 := ⟨k - 1, by omega⟩
  rw [List.range_succ_eq_map, List.map_cons, List.map_map]
  simp only [flattenOverlap, Nat.zero_mul, List.drop_zero, List.map_map]
  have hmap2 : ((fun j => (W.drop (j * (cs - ov))).take cs) ∘ Nat.succ) =
      (fun j => (W.drop ((cs - ov) + j * (cs - ov))).take cs) := by
    funext j
    simp only [Function.comp_apply]
    have : Nat.succ j * (cs - ov) = (cs - ov) + j * (cs - ov) := by
      rw [Nat.succ_mul]; omega
    rw [this]
  have hmap3 : ((fun x : List (List Char) => x.drop ov) ∘
      fun j => (W.drop ((cs - ov) + j * (cs - ov))).take cs) =
      (fun j => ((W.drop ((cs - ov) + j * (cs - ov))).take cs).drop ov) := by
    funext j
    simp
  rw [hmap2, hmap3]
  have hk1 : 1 ≤ k'' := by omega
  have hlt' : ∀ j, j + 1 < k'' → (cs - ov) + j * (cs - ov) + cs < W.length := by
    intro j hj
    have := hlt (j + 1) (by omega)
    rw [Nat.succ_mul] at this
    omega
  have hlast' : ∀ j, j + 1 = k'' → W.length ≤ (cs - ov) + j * (cs - ov) + cs := by
    intro j hj
    have := hlast (j + 1) (by omega)
    rw [Nat.succ_mul] at this
    omega
  have hjoin := join_drop_slices W cs ov hov k'' (cs - ov) hk1
    (by intro j hj; have := hlt' j hj; omega)
    (by intro j hj; have := hlast' j hj; omega)
  rw [hjoin]
  have : cs - ov + ov = cs := by omega
  rw [this]
  exact List.take_append_drop cs W

theorem slice_share (W : List (List Char)) (cs ov : Nat) (hov : ov < cs) (i : Nat) :
    ((W.drop (i + (cs - ov))).take cs).take ov = ((W.drop i).take cs).drop (cs - ov) := by
  rw [List.take_take, Nat.min_eq_left (Nat.le_of_lt hov), List.drop_take, List.drop_drop]
  congr 1
  omega

theorem normalizedWords_of_ne (text : List Char) (ht : trimChars text ≠ []) :
    normalizedWords text = splitRuns isWs (cleanseText text) := by
  unfold normalizedWords
  apply List.filter_eq_self.2
  intro f hf
  have := (cleanse_words_clean text ht f hf).1
  simpa using this

theorem normalizedWords_of_blank (text : List Char) (ht : trimChars text = []) :
    normalizedWords text = [] := by
  unfold normalizedWords
  rw [(cleanseText_nil_iff text).2 ht]
  rfl

/-! ### Helper lemmas: the score representation and its comparisons -/

theorem mulAbs_le_mulAbs (x y : ℝ) (h : x ≤ y) : x * |x| ≤ y * |y| := by
  rcases le_or_lt 0 x with hx | hx
  · have hy : 0 ≤ y := le_trans hx h
    rw [abs_of_nonneg hx, abs_of_nonneg hy]
    nlinarith
  · rcases le_or_lt 0 y with hy | hy
    · rw [abs_of_neg hx, abs_of_nonneg hy]
      nlinarith
    · rw [abs_of_neg hx, abs_of_neg hy]
      nlinarith

theorem mulAbs_lt_mulAbs (x y : ℝ) (h : x < y) : x * |x| < y * |y| := by
  rcases le_or_lt 0 x with hx | hx
  · have hy : 0 < y := lt_of_le_of_lt hx h
    rw [abs_of_nonneg hx, abs_of_pos hy]
    nlinarith
  · rcases le_or_lt 0 y with hy | hy
    · rw [abs_of_neg hx, abs_of_nonneg hy]
      nlinarith
    · rw [abs_of_neg hx, abs_of_neg hy]
      nlinarith

theorem mulAbs_lt_iff (x y : ℝ) : x * |x| < y * |y| ↔ x < y := by
  constructor
  · intro h
    by_contra hle
    push_neg at hle
    exact absurd h (not_lt.2 (mulAbs_le_mulAbs y x hle))
  · exact mulAbs_lt_mulAbs x y

theorem mulAbs_inj (x y : ℝ) (h : x * |x| = y * |y|) : x = y := by
  rcases lt_trichotomy x y with hlt | heq | hgt
  · exact absurd h (ne_of_lt (mulAbs_lt_mulAbs x y hlt))
  · exact heq
  · exact absurd h.symm (ne_of_lt (mulAbs_lt_mulAbs y x hgt))

theorem keyDen_pos (s : ScoredChunk) : 0 < keyDen s := by
  unfold keyDen
  by_cases h : s.scoreDen = 0 ∨ s.scoreWc = 0
  · rw [if_pos h]; omega
  · rw [if_neg h]
    push_neg at h
    have h1 := Nat.pos_of_ne_zero h.1
    have h2 := Nat.pos_of_ne_zero h.2
    positivity

theorem key_cast (s : ScoredChunk) :
    (keyNum s : ℝ) / (keyDen s : ℝ) =
      ((s.scoreNum : ℝ) / (s.scoreDen * Real.sqrt s.scoreWc)) *
        |(s.scoreNum : ℝ) / (s.scoreDen * Real.sqrt s.scoreWc)| := by
  by_cases hz : s.scoreDen = 0 ∨ s.scoreWc = 0
  · have hv : (s.scoreNum : ℝ) / (s.scoreDen * Real.sqrt s.scoreWc) = 0 := by
      rcases hz with h | h
      · rw [h]; simp
      · rw [h]; simp
    rw [hv]
    unfold keyNum keyDen
    rw [if_pos hz, if_pos hz]
    simp
  · push_neg at hz
    obtain ⟨hd, hw⟩ := hz
    have hd' : (0:ℝ) < (s.scoreDen : ℝ) := by
      exact_mod_cast Nat.pos_of_ne_zero hd
    have hw0 : (0:ℝ) < (s.scoreWc : ℝ) := by
      exact_mod_cast Nat.pos_of_ne_zero hw
    have hw' : (0:ℝ) < Real.sqrt s.scoreWc := Real.sqrt_pos.2 hw0
    have hkey : (((if s.scoreNum < 0 then (-1:ℤ) else 1) * s.scoreNum ^ 2 : ℤ) : ℝ) =
        (s.scoreNum : ℝ) * |(s.scoreNum : ℝ)| := by
      by_cases hA : s.scoreNum < 0
      · rw [if_pos hA]
        have habs : |(s.scoreNum : ℝ)| = -(s.scoreNum : ℝ) :=
          abs_of_neg (by exact_mod_cast hA)
        rw [habs]
        push_cast
        ring
      · rw [if_neg hA]
        have habs : |(s.scoreNum : ℝ)| = (s.scoreNum : ℝ) :=
          abs_of_nonneg (by exact_mod_cast Int.not_lt.1 hA)
        rw [habs]
        push_cast
        ring
    have hnot : ¬(s.scoreDen = 0 ∨ s.scoreWc = 0) := by
      push_neg
      exact ⟨hd, hw⟩
    unfold keyNum keyDen
    rw [if_neg hnot, if_neg hnot]
    rw [abs_div, abs_of_pos (mul_pos hd' hw')]
    rw [div_mul_div_comm]
    have hden : ((s.scoreDen:ℝ) * Real.sqrt s.scoreWc) *
        ((s.scoreDen:ℝ) * Real.sqrt s.scoreWc) = ((s.scoreDen ^ 2 * s.scoreWc : ℕ) : ℝ) := by
      push_cast
      rw [mul_mul_mul_comm, Real.mul_self_sqrt (le_of_lt hw0)]
      ring
    rw [hden, hkey]

theorem keyLt_iff (a b : ScoredChunk) : keyLt a b = true ↔ ScoreLt a b := by
  unfold keyLt ScoreLt
  rw [decide_eq_true_iff]
  have hda : (0:ℝ) < (keyDen a : ℝ) := by exact_mod_cast keyDen_pos a
  have hdb : (0:ℝ) < (keyDen b : ℝ) := by exact_mod_cast keyDen_pos b
  constructor
  · intro h
    have hcast : (keyNum a : ℝ) * (keyDen b : ℝ) < (keyNum b : ℝ) * (keyDen a : ℝ) := by
      exact_mod_cast h
    have hdiv : (keyNum a : ℝ) / (keyDen a : ℝ) < (keyNum b : ℝ) / (keyDen b : ℝ) :=
      (div_lt_div_iff₀ hda hdb).2 hcast
    rw [key_cast a, key_cast b] at hdiv
    exact (mulAbs_lt_iff _ _).1 hdiv
  · intro h
    have hdiv : (keyNum a : ℝ) / (keyDen a : ℝ) < (keyNum b : ℝ) / (keyDen b : ℝ) := by
      rw [key_cast a, key_cast b]
      exact mulAbs_lt_mulAbs _ _ h
    have hcast := (div_lt_div_iff₀ hda hdb).1 hdiv
    exact_mod_cast hcast

theorem keyEq_iff (a b : ScoredChunk) :
    (keyLt a b = false ∧ keyLt b a = false) ↔ ScoreEq a b := by
  constructor
  · intro ⟨h1, h2⟩
    have n1 : ¬ScoreLt a b := fun h => by
      rw [← keyLt_iff] at h
      rw [h1] at h
      cases h
    have n2 : ¬ScoreLt b a := fun h => by
      rw [← keyLt_iff] at h
      rw [h2] at h
      cases h
    unfold ScoreLt at n1 n2
    unfold ScoreEq
    linarith [not_lt.1 n1, not_lt.1 n2]
  · intro h
    unfold ScoreEq at h
    constructor
    · rw [← Bool.not_eq_true]
      intro hc
      have := (keyLt_iff a b).1 hc
      unfold ScoreLt at this
      rw [h] at this
      exact lt_irrefl _ this
    · rw [← Bool.not_eq_true]
      intro hc
      have := (keyLt_iff b a).1 hc
      unfold ScoreLt at this
      rw [h] at this
      exact lt_irrefl _ this

theorem keyNum_pos_iff (s : ScoredChunk) : 0 < keyNum s ↔ ScorePos s := by
  have hd : (0:ℝ) < (keyDen s : ℝ) := by exact_mod_cast keyDen_pos s
  unfold ScorePos
  constructor
  · intro h
    have h1 : (0:ℝ) < (keyNum s : ℝ) / (keyDen s : ℝ) := by
      apply div_pos _ hd
      exact_mod_cast h
    rw [key_cast s] at h1
    have h2 := (mulAbs_lt_iff 0 ((s.scoreNum : ℝ) / (s.scoreDen * Real.sqrt s.scoreWc))).1
      (by simpa using h1)
    exact h2
  · intro h
    have h1 : (0:ℝ) * |(0:ℝ)| <
        ((s.scoreNum : ℝ) / (s.scoreDen * Real.sqrt s.scoreWc)) *
          |(s.scoreNum : ℝ) / (s.scoreDen * Real.sqrt s.scoreWc)| :=
      mulAbs_lt_mulAbs _ _ h
    rw [← key_cast s] at h1
    simp only [abs_zero, mul_zero, zero_mul] at h1
    have h2 : (0:ℝ) < (keyNum s : ℝ) := by
      by_contra hc
      push_neg at hc
      have : (keyNum s : ℝ) / (keyDen s : ℝ) ≤ 0 := div_nonpos_of_nonpos_of_nonneg hc (le_of_lt hd)
      linarith
    exact_mod_cast h2

theorem rankLe_iff (a b : ScoredChunk) : rankLe a b = true ↔ RankOrder a b := by
  unfold rankLe RankOrder
  by_cases h1 : keyLt b a = true
  · rw [if_pos h1]
    exact iff_of_true rfl (Or.inl ((keyLt_iff b a).1 h1))
  · rw [if_neg h1]
    have h1' : keyLt b a = false := by
      rw [← Bool.not_eq_true]; exact h1
    by_cases h2 : keyLt a b = true
    · rw [if_pos h2]
      refine iff_of_false (by simp) ?_
      intro hcon
      rcases hcon with hlt | ⟨heq, _⟩
      · rw [← keyLt_iff] at hlt
        rw [h1'] at hlt
        cases hlt
      · rcases (keyEq_iff a b).2 heq with ⟨hx, _⟩
        rw [h2] at hx
        cases hx
    · have h2' : keyLt a b = false := by
        rw [← Bool.not_eq_true]; exact h2
      rw [if_neg h2]
      have heq : ScoreEq a b := (keyEq_iff a b).1 ⟨h2', h1'⟩
      have hnlt : ¬ScoreLt b a := fun hc => by
        rw [← keyLt_iff, h1'] at hc
        cases hc
      by_cases h3 : b.matchedWords < a.matchedWords
      · rw [if_pos h3]
        exact iff_of_true rfl (Or.inr ⟨heq, Or.inl h3⟩)
      · rw [if_neg h3]
        by_cases h4 : a.matchedWords < b.matchedWords
        · rw [if_pos h4]
          refine iff_of_false (by simp) ?_
          intro hcon
          rcases hcon with hlt | ⟨_, hm | ⟨hm, _⟩⟩
          · exact hnlt hlt
          · exact h3 hm
          · omega
        · rw [if_neg h4]
          have hm : a.matchedWords = b.matchedWords := by omega
          rw [decide_eq_true_iff]
          constructor
          · intro h5
            exact Or.inr ⟨heq, Or.inr ⟨hm, h5⟩⟩
          · intro hcon
            rcases hcon with hlt | ⟨_, hmm | ⟨_, h5⟩⟩
            · exact absurd hlt hnlt
            · exact absurd hmm h3
            · exact h5

theorem rankOrder_total (a b : ScoredChunk) : RankOrder a b ∨ RankOrder b a := by
  unfold RankOrder ScoreLt ScoreEq
  rcases lt_trichotomy ((a.scoreNum : ℝ) / (a.scoreDen * Real.sqrt a.scoreWc))
    ((b.scoreNum : ℝ) / (b.scoreDen * Real.sqrt b.scoreWc)) with h | h | h
  · exact Or.inr (Or.inl h)
  · rcases lt_trichotomy a.matchedWords b.matchedWords with hm | hm | hm
    · exact Or.inr (Or.inr ⟨h.symm, Or.inl hm⟩)
    · rcases le_total a.chunkIndex b.chunkIndex with hc | hc
      · exact Or.inl (Or.inr ⟨h, Or.inr ⟨hm, hc⟩⟩)
      · exact Or.inr (Or.inr ⟨h.symm, Or.inr ⟨hm.symm, hc⟩⟩)
    · exact Or.inl (Or.inr ⟨h, Or.inl hm⟩)
  · exact Or.inl (Or.inl h)

theorem rankOrder_trans (a b c : ScoredChunk)
    (hab : RankOrder a b) (hbc : RankOrder b c) : RankOrder a c := by
  unfold RankOrder ScoreLt ScoreEq at *
  rcases hab with h1 | ⟨h1, h1'⟩ <;> rcases hbc with h2 | ⟨h2, h2'⟩
  · exact Or.inl (lt_trans h2 h1)
  · exact Or.inl (h2 ▸ h1)
  · exact Or.inl (by rw [h1]; exact h2)
  · refine Or.inr ⟨h1.trans h2, ?_⟩
    rcases h1' with hm1 | ⟨hm1, hc1⟩ <;> rcases h2' with hm2 | ⟨hm2, hc2⟩
    · exact Or.inl (lt_trans hm2 hm1)
    · exact Or.inl (hm2 ▸ hm1)
    · exact Or.inl (by rw [hm1]; exact hm2)
    · exact Or.inr ⟨hm1.trans hm2, le_trans hc1 hc2⟩

theorem rankLe_total (a b : ScoredChunk) : (rankLe a b || rankLe b a) = true := by
  rcases rankOrder_total a b with h | h
  · rw [(rankLe_iff a b).2 h]
    rfl
  · rw [(rankLe_iff b a).2 h]
    simp

theorem rankLe_trans (a b c : ScoredChunk) (h1 : rankLe a b = true)
    (h2 : rankLe b c = true) : rankLe a c = true :=
  (rankLe_iff a c).2 (rankOrder_trans a b c ((rankLe_iff a b).1 h1) ((rankLe_iff b c).1 h2))

/-! ### Helper lemmas: the scoring map -/

theorem splitRunsAux_ne_nil_list (p : Char → Bool) :
    ∀ (l acc : List Char) (flag : Bool), splitRunsAux p acc flag l ≠ [] := by
  intro l
  induction l with
  | nil => intro acc flag; simp [splitRunsAux]
  | cons c rest ih =>
    intro acc flag
    by_cases hc : p c = true
    · cases flag with
      | true =>
        simp only [splitRunsAux, hc, if_true]
        exact ih acc true
      | false =>
        simp only [splitRunsAux, hc, if_true]
        simp
    · have hc' : p c = false := by simpa using hc
      simp only [splitRunsAux, hc', Bool.false_eq_true, if_false]
      exact ih (c :: acc) false

theorem splitRuns_length_pos (p : Char → Bool) (l : List Char) :
    0 < (splitRuns p l).length := by
  unfold splitRuns
  have := splitRunsAux_ne_nil_list p l [] false
  exact List.length_pos.2 this

theorem foldl_add_eq_sum (g : List Char → Nat) :
    ∀ (l : List (List Char)) (a : Nat),
      l.foldl (fun s w => s + g w) a = a + (l.map g).sum := by
  intro l
  induction l with
  | nil => intro a; simp
  | cons w rest ih =>
    intro a
    rw [List.foldl_cons, ih (a + g w), List.map_cons, List.sum_cons]
    omega

theorem cast_nat_sub_eq_max (p e : Nat) :
    ((p - e : Nat) : ℝ) = max 0 ((p : ℝ) - (e : ℝ)) := by
  rcases le_total e p with h | h
  · rw [Nat.cast_sub h]
    rw [max_eq_right (by simp [h])]
  · rw [Nat.sub_eq_zero_of_le h]
    rw [max_eq_left (by simp [h])]
    exact Nat.cast_zero

theorem scoreChunk_fields (qw : List (List Char)) (n idx : Nat) (c : RChunk) :
    (scoreChunk qw n idx c).content = c.content ∧
    (scoreChunk qw n idx c).chunkIndex = c.chunkIndex ∧
    (scoreChunk qw n idx c).pageNumber = c.pageNumber ∧
    (scoreChunk qw n idx c).id = c.id :=
  ⟨rfl, rfl, rfl, rfl⟩

theorem mem_scoreList (qw : List (List Char)) (n : Nat) :
    ∀ (i : Nat) (cs : List RChunk) (s : ScoredChunk),
      s ∈ scoreList qw n i cs → ∃ j c, c ∈ cs ∧ s = scoreChunk qw n j c := by
  intro i cs
  induction cs generalizing i with
  | nil => intro s hs; cases hs
  | cons c rest ih =>
    intro s hs
    rcases List.mem_cons.1 hs with hs | hs
    · exact ⟨i, c, by simp, hs⟩
    · rcases ih (i + 1) s hs with ⟨j, c', hc', hs'⟩
      exact ⟨j, c', by simp [hc'], hs'⟩

/-! ### Claim theorems -/

/-- Claim C1 (failing evaluation).  The claim states that `chunkText`'s
normalisation preserves paragraph breaks and that whole paragraphs are
the unit of greedy packing, so that `"a b\n\nc d e"` with
`chunkSize = 3, overlap = 1` would yield the first paragraph `"a b"` as
its own chunk and a second chunk seeded with the overlap word `"b"`.
In the source, `replace(/\s+/g, " ")` runs before the `split(/\n+/)`
paragraph split and collapses the blank line to a single space, so the
whole text becomes the single 5-word paragraph `"a b c d e"` and is
split by the fixed-window loop instead: the result is
`["a b c", "c d e"]`. -/
theorem chunkText_C1_paragraph_break_lost :
    cleanseText ("a b\n\nc d e".data) = "a b c d e".data ∧
    chunkText "a b\n\nc d e" 3 1 =
      some [{ content := "a b c".data, chunkIndex := 0, pageNumber := 0 },
            { content := "c d e".data, chunkIndex := 1, pageNumber := 0 }] := by
  constructor
  · decide
  · decide

/-- Claim C7: for every text and parameters with
`overlap < chunkSize`, the `chunkIndex` values of the chunks returned
by `chunkText` are exactly `0, 1, …, n-1` in emission order — dense,
zero-based, gap-free and strictly increasing (empty chunks are dropped
before an index is assigned). -/
theorem chunkText_C7_chunkIndex_dense (text : String) (cs ov : Nat) (_hov : ov < cs)
    (r : List Chunk) (h : chunkText text cs ov = some r) :
    r.map (fun c => c.chunkIndex) = List.range r.length := by
  unfold chunkText chunkTextCore at h
  by_cases hb : (trimChars text.data).isEmpty
  · rw [if_pos hb] at h
    cases h
    simp
  · rw [if_neg hb] at h
    cases hp : processParas cs ov (paragraphsOf text.data) initState with
    | none => rw [hp] at h; cases h
    | some st =>
      rw [hp] at h
      have hinit : IndexInv initState := by
        constructor <;> simp [initState]
      have hst : IndexInv st := processParas_inv cs ov _ _ _ hp hinit
      have hfl : IndexInv (flushBuffer st) := flushBuffer_inv st hst
      have hr : r = (flushBuffer st).chunks := by
        cases h
        rfl
      rw [hr]
      exact hfl.2

/-- Claim C7 witness: a concrete run with two emitted chunks. -/
theorem chunkText_C7_witness :
    3 > 1 ∧
    [({ content := "a b c".data, chunkIndex := 0, pageNumber := 0 } : Chunk),
     { content := "c d e".data, chunkIndex := 1, pageNumber := 0 }].map
        (fun c => c.chunkIndex) =
      List.range
        [({ content := "a b c".data, chunkIndex := 0, pageNumber := 0 } : Chunk),
         { content := "c d e".data, chunkIndex := 1, pageNumber := 0 }].length :=
  ⟨by omega, chunkText_C7_chunkIndex_dense "a b\n\nc d e" 3 1 (by omega) _ (by decide)⟩

/-- Claim C9: for every text string and parameters with
`overlap < chunkSize`, `chunkText` terminates — the window loop
advances by the positive stride `chunkSize - overlap` and stops at the
first window reaching the end, so the fuelled model never runs out. -/
theorem chunkText_C9_terminates (text : String) (cs ov : Nat) (hov : ov < cs) :
    ∃ r, chunkText text cs ov = some r := by
  unfold chunkText chunkTextCore
  by_cases hb : (trimChars text.data).isEmpty
  · rw [if_pos hb]
    exact ⟨[], rfl⟩
  · rw [if_neg hb]
    rcases processParas_some cs ov hov (paragraphsOf text.data) initState with ⟨st, hst⟩
    rw [hst]
    exact ⟨(flushBuffer st).chunks, rfl⟩

/-- Claim C9 witness: a concrete oversized input with a small stride. -/
theorem chunkText_C9_witness : ∃ r, chunkText "a b c d e f g" 2 1 = some r :=
  chunkText_C9_terminates "a b c d e f g" 2 1 (by omega)

/-- Claim C8: for every text and parameters with
`overlap < chunkSize`, the chunks returned by `chunkText` reconstruct
the source: concatenating, in emission order, each chunk's word
sequence after removing the overlap fragment it shares with its
predecessor yields the full word sequence of the whitespace-normalised
input, with no word lost or duplicated; the removed prefix of each
chunk is indeed a suffix of its predecessor's word sequence. -/
theorem chunkText_C8_reconstruction (text : String) (cs ov : Nat) (hov : ov < cs)
    (r : List Chunk) (h : chunkText text cs ov = some r) :
    flattenOverlap ov (r.map (fun c => splitRuns isWs c.content)) =
      normalizedWords text.data ∧
    List.Chain' (fun a b =>
      (splitRuns isWs b.content).take ov <:+ splitRuns isWs a.content) r := by
  unfold chunkText at h
  by_cases ht : trimChars text.data = []
  · rw [chunkTextCore_of_blank text.data cs ov ht] at h
    cases h
    exact ⟨by rw [normalizedWords_of_blank text.data ht]; rfl, by simp⟩
  · by_cases hsmall : (splitRuns isWs (cleanseText text.data)).length ≤ cs
    · rw [chunkTextCore_single_small text.data cs ov ht hsmall] at h
      cases h
      constructor
      · rw [normalizedWords_of_ne text.data ht]
        show splitRuns isWs (cleanseText text.data) ++ (List.map _ []).flatten = _
        simp
      · simp
    · push_neg at hsmall
      rcases chunkTextCore_single_big text.data cs ov hov ht hsmall with
        ⟨k, hk2, heq, hin, hlt, hlast⟩
      rw [heq] at h
      cases h
      have hWclean := cleanse_words_clean text.data ht
      constructor
      · rw [normalizedWords_of_ne text.data ht]
        exact flattenOverlap_windowChunks _ cs ov hov hWclean k hk2 hin hlt hlast
      · unfold windowChunks
        rw [List.chain'_map]
        obtain ⟨k'', rfl⟩ : ∃ k'', k = k'' + 1 := ⟨k - 1, by omega⟩
        rw [List.chain'_range_succ]
        intro m hm
        have h1 : 0 + m * (cs - ov) = m * (cs - ov) := by omega
        have h2 : 0 + Nat.succ m * (cs - ov) = m * (cs - ov) + (cs - ov) := by
          rw [Nat.succ_mul]; omega
        show (splitRuns isWs (joinSep [' ']
            (((splitRuns isWs (cleanseText text.data)).drop
              (0 + Nat.succ m * (cs - ov))).take cs))).take ov <:+
          splitRuns isWs (joinSep [' ']
            (((splitRuns isWs (cleanseText text.data)).drop (0 + m * (cs - ov))).take cs))
        rw [h1, h2]
        rw [windowChunk_words _ cs _ hWclean
          (by have := hin (m + 1) (by omega); rw [Nat.succ_mul] at this; omega)
          (by omega)]
        rw [windowChunk_words _ cs _ hWclean
          (by have := hin m (by omega); omega) (by omega)]
        rw [slice_share _ cs ov hov (m * (cs - ov))]
        exact List.drop_suffix _ _

/-- Claim C8 witness: the reconstruction property at a concrete input
("a b\n\nc d e" with chunk size 3 and overlap 1). -/
theorem chunkText_C8_witness :
    flattenOverlap 1
      ([{ content := "a b c".data, chunkIndex := 0, pageNumber := 0 },
        { content := "c d e".data, chunkIndex := 1, pageNumber := 0 }].map
        (fun c : Chunk => splitRuns isWs c.content)) =
      normalizedWords ("a b\n\nc d e".data) ∧
    List.Chain' (fun a b =>
      (splitRuns isWs b.content).take 1 <:+ splitRuns isWs a.content)
      [({ content := "a b c".data, chunkIndex := 0, pageNumber := 0 } : Chunk),
       { content := "c d e".data, chunkIndex := 1, pageNumber := 0 }] :=
  chunkText_C8_reconstruction "a b\n\nc d e" 3 1 (by omega) _ (by decide)

/-- Claim C4: when a paragraph's word count exceeds `chunkSize`
(with `overlap < chunkSize`), the paragraph loop first flushes any
pending buffer as its own chunk (no overlap injected), then emits
fixed windows left to right with stride `chunkSize - overlap`: every
window except the final one holds exactly `chunkSize` words and stops
short of the paragraph end, consecutive windows share exactly
`overlap` words, and the loop stops with the first window that reaches
the end, even if that window is shorter than `chunkSize`. -/
theorem processParas_C4_oversized (cs ov : Nat) (hov : ov < cs) (p : List Char)
    (rest : List (List Char)) (st : ChunkState)
    (hbig : cs < (paraWords p).length) :
    ∃ k st2,
      windowLoop ((paraWords p).length + 1) (paraWords p) cs ov 0 (flushBuffer st) =
        some st2 ∧
      processParas cs ov (p :: rest) st = processParas cs ov rest st2 ∧
      2 ≤ k ∧
      st2.chunks = (flushBuffer st).chunks ++
        windowChunks (paraWords p) cs ov (flushBuffer st).chunkIndex 0 k ∧
      (∀ j, j + 1 < k →
        ((((paraWords p).drop (j * (cs - ov))).take cs).length = cs ∧
          j * (cs - ov) + cs < (paraWords p).length)) ∧
      (∀ j, j + 1 < k →
        ((((paraWords p).drop ((j + 1) * (cs - ov))).take cs).take ov =
            (((paraWords p).drop (j * (cs - ov))).take cs).drop (cs - ov) ∧
          (((((paraWords p).drop (j * (cs - ov))).take cs).drop (cs - ov)).length = ov))) ∧
      (∀ j, j + 1 = k → (paraWords p).length ≤ j * (cs - ov) + cs) ∧
      (st.currentChunk ≠ [] → trimChars (joinSep nlnl st.currentChunk) ≠ [] →
        (flushBuffer st).chunks = st.chunks ++
          [{ content := trimChars (joinSep nlnl st.currentChunk),
             chunkIndex := st.chunkIndex, pageNumber := 0 }]) := by
  have htp : trimChars p ≠ [] := by
    intro h0
    unfold paraWords at hbig
    rw [h0] at hbig
    have hone : (splitRuns isWs ([] : List Char)).length = 1 := rfl
    omega
  have hclean := paraWords_clean p htp
  rcases windowLoop_spec (paraWords p) cs ov hov hclean ((paraWords p).length + 1) 0
    (flushBuffer st) (by omega) (by omega) with
    ⟨k, st2, hwl, _, _, _, hch, hk0, hin, hlt, hlast⟩
  have hk2 : 2 ≤ k := by
    have hk0' : k ≠ 0 := by
      intro h
      have := hk0.1 h
      omega
    have hk1' : k ≠ 1 := by
      intro h
      have := hlast 0 (by omega)
      simp only [Nat.zero_mul, Nat.add_zero, Nat.zero_add] at this
      omega
    omega
  refine ⟨k, st2, hwl, ?_, hk2, by simpa using hch, ?_, ?_, ?_, ?_⟩
  · show processParas cs ov (p :: rest) st = processParas cs ov rest st2
    conv_lhs => unfold processParas
    rw [if_pos hbig, hwl]
  · intro j hj
    have hfull := hlt j hj
    constructor
    · rw [List.length_take, List.length_drop]
      omega
    · omega
  · intro j hj
    have hfull := hlt j hj
    constructor
    · have hstep : (j + 1) * (cs - ov) = j * (cs - ov) + (cs - ov) := by
        rw [Nat.add_mul]; omega
      rw [hstep]
      exact slice_share _ cs ov hov (j * (cs - ov))
    · rw [List.length_drop, List.length_take, List.length_drop]
      omega
  · intro j hj
    have := hlast j hj
    omega
  · intro h1 h2
    unfold flushBuffer
    rw [if_neg (by simpa using h1)]
    show (pushChunk st (joinSep nlnl st.currentChunk)).chunks = _
    rw [pushChunk_of_ne_nil st _ h2]

/-- Claim C4 witness: a concrete oversized paragraph (5 words, chunk
size 3, overlap 1) processed from a state with a pending buffer. -/
theorem processParas_C4_witness :
    ∃ k st2,
      windowLoop ((paraWords ("a b c d e".data)).length + 1) (paraWords ("a b c d e".data))
        3 1 0 (flushBuffer ⟨[], ["hi".data], 1, 0⟩) = some st2 ∧
      processParas 3 1 ["a b c d e".data] ⟨[], ["hi".data], 1, 0⟩ =
        processParas 3 1 [] st2 ∧
      2 ≤ k ∧
      st2.chunks = (flushBuffer ⟨[], ["hi".data], 1, 0⟩).chunks ++
        windowChunks (paraWords ("a b c d e".data)) 3 1
          (flushBuffer ⟨[], ["hi".data], 1, 0⟩).chunkIndex 0 k ∧
      (∀ j, j + 1 < k →
        ((((paraWords ("a b c d e".data)).drop (j * (3 - 1))).take 3).length = 3 ∧
          j * (3 - 1) + 3 < (paraWords ("a b c d e".data)).length)) ∧
      (∀ j, j + 1 < k →
        ((((paraWords ("a b c d e".data)).drop ((j + 1) * (3 - 1))).take 3).take 1 =
            (((paraWords ("a b c d e".data)).drop (j * (3 - 1))).take 3).drop (3 - 1) ∧
          (((((paraWords ("a b c d e".data)).drop (j * (3 - 1))).take 3).drop (3 - 1)).length = 1))) ∧
      (∀ j, j + 1 = k → (paraWords ("a b c d e".data)).length ≤ j * (3 - 1) + 3) ∧
      ((⟨[], ["hi".data], 1, 0⟩ : ChunkState).currentChunk ≠ [] →
        trimChars (joinSep nlnl (⟨[], ["hi".data], 1, 0⟩ : ChunkState).currentChunk) ≠ [] →
        (flushBuffer ⟨[], ["hi".data], 1, 0⟩).chunks =
          (⟨[], ["hi".data], 1, 0⟩ : ChunkState).chunks ++
          [{ content := trimChars (joinSep nlnl (⟨[], ["hi".data], 1, 0⟩ : ChunkState).currentChunk),
             chunkIndex := (⟨[], ["hi".data], 1, 0⟩ : ChunkState).chunkIndex, pageNumber := 0 }]) :=
  processParas_C4_oversized 3 1 (by omega) ("a b c d e".data) [] ⟨[], ["hi".data], 1, 0⟩
    (by decide)

/-- Claim C5 (failing evaluation).  The claim states that
`findRelevantChunks` is total over arbitrary query strings and treats
regex-special characters in query tokens as literal text.  The source
interpolates each surviving token into `new RegExp(...)` unescaped; for
the query `"c++"` the surviving token is `"c++"` and the constructed
pattern `\bc++\b` is invalid, so the JS function throws `SyntaxError`
instead of returning (modelled as `Except.error`). -/
theorem findRelevantChunks_C5_regex_error :
    queryWordsOf "c++" = ["c++".data] ∧
    findRelevantChunks
      [{ content := "c plus plus".data, chunkIndex := 0, pageNumber := 0, id := none }]
      "c++" 3 = .error () := by
  constructor
  · decide
  · decide

/-- Claim C6: query tokenisation lowercases, splits on whitespace and
drops tokens of length ≤ 2 or in the stop-word set; when no token
survives, `findRelevantChunks` returns the first
`min(maxChunks, chunks.length)` input chunks in their original order,
unscored. -/
theorem findRelevantChunks_C6_passthrough (chunks : List RChunk) (query : String)
    (maxChunks : Nat) (hq : query.data ≠ []) (ht : queryWordsOf query = []) :
    findRelevantChunks chunks query maxChunks =
      .ok ((chunks.take maxChunks).map .plain) := by
  unfold findRelevantChunks
  by_cases hc : chunks = []
  · subst hc
    rw [if_pos (by simp)]
    simp
  · rw [if_neg (by simp [hc, hq])]
    simp only [ht, List.isEmpty_nil, if_true]

/-- Claim C6 witness: a query made only of stop words and short tokens
returns the first `maxChunks` chunks unscored. -/
theorem findRelevantChunks_C6_witness :
    findRelevantChunks
      [{ content := "alpha".data, chunkIndex := 5, pageNumber := 1, id := some 2 },
       { content := "beta".data, chunkIndex := 6, pageNumber := 2, id := none }]
      "Which it an the" 1 =
      .ok (([{ content := "alpha".data, chunkIndex := 5, pageNumber := 1, id := some 2 },
             { content := "beta".data, chunkIndex := 6, pageNumber := 2, id := none }].take 1).map
        .plain) :=
  findRelevantChunks_C6_passthrough _ "Which it an the" 1 (by decide) (by decide)

/-- Claim C10: `findRelevantChunks` never alters the chunk data: every
record of the output is either a bare copy of an input chunk
(stop-word pass-through) or a scored record whose `content`,
`chunkIndex`, `pageNumber` and `id` equal those of the input chunk it
was derived from — the ranker only adds the score annotations. -/
theorem findRelevantChunks_C10_frame (chunks : List RChunk) (query : String)
    (maxChunks : Nat) (rs : List RankedRecord)
    (h : findRelevantChunks chunks query maxChunks = .ok rs) :
    ∀ r ∈ rs,
      (∃ c ∈ chunks, r = .plain c) ∨
      (∃ s, r = .scored s ∧ ∃ c ∈ chunks,
        s.content = c.content ∧ s.chunkIndex = c.chunkIndex ∧
        s.pageNumber = c.pageNumber ∧ s.id = c.id) := by
  unfold findRelevantChunks at h
  by_cases hd : (chunks.isEmpty || query.data.isEmpty) = true
  · rw [if_pos hd] at h
    cases h
    intro r hr
    cases hr
  · rw [if_neg hd] at h
    by_cases hqe : (queryWordsOf query).isEmpty = true
    · rw [if_pos hqe] at h
      cases h
      intro r hr
      rcases List.mem_map.1 hr with ⟨c, hc, hrc⟩
      exact Or.inl ⟨c, (List.take_sublist maxChunks chunks).subset hc, hrc.symm⟩
    · rw [if_neg hqe] at h
      by_cases hlit : (queryWordsOf query).all isLiteralToken = true
      · rw [if_pos hlit] at h
        cases h
        intro r hr
        rcases List.mem_map.1 hr with ⟨s, hs, hrs⟩
        have hs1 : s ∈ (List.insertionSort (fun a b => rankLe a b = true)
            ((scoreList (queryWordsOf query) chunks.length 0 chunks).filter
              (fun s => decide (0 < keyNum s)))) :=
          (List.take_sublist maxChunks _).subset hs
        have hs2 : s ∈ (scoreList (queryWordsOf query) chunks.length 0 chunks).filter
            (fun s => decide (0 < keyNum s)) :=
          (List.perm_insertionSort _ _).subset hs1
        have hs3 : s ∈ scoreList (queryWordsOf query) chunks.length 0 chunks :=
          List.mem_of_mem_filter hs2
        rcases mem_scoreList (queryWordsOf query) chunks.length 0 chunks s hs3 with
          ⟨j, c, hc, hsc⟩
        refine Or.inr ⟨s, hrs.symm, c, hc, ?_⟩
        rw [hsc]
        exact scoreChunk_fields _ _ _ _
      · rw [if_neg hlit] at h
        cases h

/-- Claim C10 witness: frame preservation at a concrete scored run. -/
theorem findRelevantChunks_C10_witness :
    (∃ c ∈ [(⟨"apple pie".data, 7, 2, some 4⟩ : RChunk)],
      RankedRecord.scored ⟨"apple pie".data, 7, 2, some 4, 60, 20, 2, 6, 1⟩ = .plain c) ∨
    (∃ s, RankedRecord.scored ⟨"apple pie".data, 7, 2, some 4, 60, 20, 2, 6, 1⟩ = .scored s ∧
      ∃ c ∈ [(⟨"apple pie".data, 7, 2, some 4⟩ : RChunk)],
        s.content = c.content ∧ s.chunkIndex = c.chunkIndex ∧
        s.pageNumber = c.pageNumber ∧ s.id = c.id) :=
  findRelevantChunks_C10_frame [⟨"apple pie".data, 7, 2, some 4⟩]
    "apple" 3 [.scored ⟨"apple pie".data, 7, 2, some 4, 60, 20, 2, 6, 1⟩] (by decide)
    (.scored ⟨"apple pie".data, 7, 2, some 4, 60, 20, 2, 6, 1⟩) (List.mem_singleton.2 rfl)

/-- Claim C3: when at least one query token survives, the ranker drops
every chunk whose final score is ≤ 0, sorts the rest by descending
score with ties broken by higher `matchedWords` and then by ascending
`chunkIndex`, and truncates to `maxChunks`; hence the result never
exceeds `maxChunks` records and never contains a non-positive score. -/
theorem findRelevantChunks_C3_rank (chunks : List RChunk) (query : String)
    (maxChunks : Nat) (rs : List RankedRecord)
    (h : findRelevantChunks chunks query maxChunks = .ok rs) :
    rs.length ≤ maxChunks ∧
    (queryWordsOf query ≠ [] →
      ∃ ss : List ScoredChunk, rs = ss.map .scored ∧
        (∀ s ∈ ss, ScorePos s) ∧ List.Pairwise RankOrder ss) := by
  unfold findRelevantChunks at h
  by_cases hd : (chunks.isEmpty || query.data.isEmpty) = true
  · rw [if_pos hd] at h
    cases h
    exact ⟨by simp, fun _ => ⟨[], rfl, by simp, by simp⟩⟩
  · rw [if_neg hd] at h
    by_cases hqe : (queryWordsOf query).isEmpty = true
    · rw [if_pos hqe] at h
      cases h
      constructor
      · rw [List.length_map, List.length_take]
        exact min_le_left _ _
      · intro hne
        exact absurd (List.isEmpty_iff.1 hqe) hne
    · rw [if_neg hqe] at h
      by_cases hlit : (queryWordsOf query).all isLiteralToken = true
      · rw [if_pos hlit] at h
        cases h
        constructor
        · rw [List.length_map, List.length_take]
          exact min_le_left _ _
        · intro _
          refine ⟨_, rfl, ?_, ?_⟩
          · intro s hs
            have hs2 : s ∈ (scoreList (queryWordsOf query) chunks.length 0 chunks).filter
                (fun s => decide (0 < keyNum s)) :=
              (List.perm_insertionSort _ _).subset
                ((List.take_sublist maxChunks _).subset hs)
            have hpos := List.of_mem_filter hs2
            rw [decide_eq_true_iff] at hpos
            exact (keyNum_pos_iff s).1 hpos
          · letI : IsTotal ScoredChunk (fun a b => rankLe a b = true) := ⟨fun a b => by
              have htot := rankLe_total a b
              rcases Bool.or_eq_true_iff.1 htot with h | h
              · exact Or.inl h
              · exact Or.inr h⟩
            letI : IsTrans ScoredChunk (fun a b => rankLe a b = true) := ⟨rankLe_trans⟩
            have hsorted : List.Pairwise (fun a b => rankLe a b = true)
                (List.insertionSort (fun a b => rankLe a b = true)
                  ((scoreList (queryWordsOf query) chunks.length 0 chunks).filter
                    (fun s => decide (0 < keyNum s)))) :=
              List.sorted_insertionSort _ _
            have htake := hsorted.sublist (List.take_sublist maxChunks _)
            exact htake.imp (fun hab => (rankLe_iff _ _).1 hab)
      · rw [if_neg hlit] at h
        cases h

/-- Claim C3 witness: a concrete scored run where one chunk scores 0
and is dropped, and two chunks are ordered by descending score. -/
theorem findRelevantChunks_C3_witness :
    ([RankedRecord.scored ⟨"apple".data, 4, 0, none, 174, 60, 1, 6, 1⟩,
      RankedRecord.scored ⟨"apple".data, 2, 0, none, 168, 60, 1, 6, 1⟩] :
        List RankedRecord).length ≤ 2 ∧
    (queryWordsOf "apple" ≠ [] →
      ∃ ss : List ScoredChunk,
        ([RankedRecord.scored ⟨"apple".data, 4, 0, none, 174, 60, 1, 6, 1⟩,
          RankedRecord.scored ⟨"apple".data, 2, 0, none, 168, 60, 1, 6, 1⟩] :
            List RankedRecord) = ss.map .scored ∧
        (∀ s ∈ ss, ScorePos s) ∧ List.Pairwise RankOrder ss) :=
  findRelevantChunks_C3_rank
    [⟨"pear".data, 7, 0, none⟩, ⟨"apple".data, 4, 0, none⟩, ⟨"apple".data, 2, 0, none⟩]
    "apple" 2 _ (by decide)

theorem sum_map_div_two (l : List ℝ) : (l.map (fun x => x / 2)).sum = l.sum / 2 := by
  induction l with
  | nil => simp
  | cons x rest ih =>
    rw [List.map_cons, List.sum_cons, List.sum_cons, ih]
    ring

/-- Claim C2 (amended): for every chunk, the score the ranker computes
equals the sum, over the surviving token list (counted with
multiplicity: a query word appearing twice contributes twice), of
`wholeWordMatches * 3 + max(0, substringMatches - wholeWordMatches) * 1.5`,
plus `count * 2` whenever more than one entry of the token list occurs
in the chunk — where `count` is that multiplicity-counting number of
occurring tokens (stored as `matchedWords`), not the number of distinct
tokens; the sum is divided by the square root of the chunk's word count
and multiplied by `1 - idx/n * 0.1`. -/
theorem scoreChunk_C2_formula (qw : List (List Char)) (n idx : Nat) (ch : RChunk)
    (hn : 0 < n) :
    ((scoreChunk qw n idx ch).scoreNum : ℝ) /
      ((scoreChunk qw n idx ch).scoreDen * Real.sqrt (scoreChunk qw n idx ch).scoreWc) =
    ((qw.map (fun w =>
        (countExact w (ch.content.map Char.toLower) : ℝ) * 3 +
          max 0 ((countOccs w (ch.content.map Char.toLower) : ℝ) -
            (countExact w (ch.content.map Char.toLower) : ℝ)) * (3 / 2))).sum +
      (if 1 < (qw.filter (fun w => includesTok w (ch.content.map Char.toLower))).length
       then ((qw.filter (fun w => includesTok w (ch.content.map Char.toLower))).length : ℝ) * 2
       else 0)) /
      Real.sqrt ((splitRuns isWs (ch.content.map Char.toLower)).length) *
      (1 - (idx : ℝ) / (n : ℝ) * (1 / 10)) := by
  set content := ch.content.map Char.toLower with hcontent
  set uniq := (qw.filter (fun w => includesTok w content)).length with huniq
  set base := qw.foldl
    (fun s w => s + countExact w content * 6 + (countOccs w content - countExact w content) * 3)
    0 with hbase
  set score2 := if 1 < uniq then base + uniq * 4 else base with hscore2
  have hproj1 : (scoreChunk qw n idx ch).scoreNum =
      (score2 : Int) * (10 * (n : Int) - (idx : Int)) := rfl
  have hproj2 : (scoreChunk qw n idx ch).scoreDen = 20 * n := rfl
  have hproj3 : (scoreChunk qw n idx ch).scoreWc =
      (splitRuns isWs content).length := rfl
  rw [hproj1, hproj2, hproj3]
  have hfold : base = (qw.map
      (fun w => countExact w content * 6 + (countOccs w content - countExact w content) * 3)).sum := by
    rw [hbase]
    have hfun : (fun (s : Nat) (w : List Char) =>
        s + countExact w content * 6 + (countOccs w content - countExact w content) * 3) =
        (fun (s : Nat) (w : List Char) =>
          s + (countExact w content * 6 + (countOccs w content - countExact w content) * 3)) := by
      funext s w
      omega
    rw [hfun, foldl_add_eq_sum]
    omega
  have hsum : (qw.map (fun w =>
      (countExact w content : ℝ) * 3 +
        max 0 ((countOccs w content : ℝ) - (countExact w content : ℝ)) * (3 / 2))).sum =
      (base : ℝ) / 2 := by
    have hpt : ∀ w ∈ qw,
        (countExact w content : ℝ) * 3 +
          max 0 ((countOccs w content : ℝ) - (countExact w content : ℝ)) * (3 / 2) =
        ((countExact w content * 6 + (countOccs w content - countExact w content) * 3 : Nat) : ℝ) / 2 := by
      intro w _
      rw [← cast_nat_sub_eq_max]
      push_cast
      ring
    rw [List.map_congr_left hpt]
    have hmm : qw.map (fun w =>
        ((countExact w content * 6 + (countOccs w content - countExact w content) * 3 : Nat) : ℝ) / 2) =
        (qw.map (fun w =>
          ((countExact w content * 6 + (countOccs w content - countExact w content) * 3 : Nat) : ℝ))).map
          (fun x => x / 2) := by
      rw [List.map_map]
      rfl
    rw [hmm, sum_map_div_two, hfold]
    have hcast : ((qw.map
        (fun w => countExact w content * 6 + (countOccs w content - countExact w content) * 3)).sum : ℝ) =
        (qw.map (fun w =>
          ((countExact w content * 6 + (countOccs w content - countExact w content) * 3 : Nat) : ℝ))).sum := by
      rw [Nat.cast_list_sum, List.map_map]
      rfl
    rw [hcast]
  rw [hsum]
  have hwc : (0:ℝ) < Real.sqrt ((splitRuns isWs content).length) := by
    apply Real.sqrt_pos.2
    exact_mod_cast splitRuns_length_pos isWs content
  have hn' : (0:ℝ) < (n : ℝ) := by exact_mod_cast hn
  have hbonus : ((base : ℝ) / 2 + (if 1 < uniq then (uniq : ℝ) * 2 else 0)) = (score2 : ℝ) / 2 := by
    rw [hscore2]
    by_cases hu : 1 < uniq
    · rw [if_pos hu, if_pos hu]
      push_cast
      ring
    · rw [if_neg hu, if_neg hu]
      ring
  rw [hbonus]
  have hnne : (n : ℝ) ≠ 0 := ne_of_gt hn'
  have hwcne : Real.sqrt ((splitRuns isWs content).length) ≠ 0 := ne_of_gt hwc
  push_cast
  field_simp
  ring

/-- Claim C2 witness: the amended score formula evaluated at a
concrete chunk and query. -/
theorem scoreChunk_C2_witness :
    0 < 1 ∧
    ((scoreChunk ["apple".data] 1 0 ⟨"apple pie".data, 0, 0, none⟩).scoreNum : ℝ) /
      ((scoreChunk ["apple".data] 1 0 ⟨"apple pie".data, 0, 0, none⟩).scoreDen *
        Real.sqrt (scoreChunk ["apple".data] 1 0 ⟨"apple pie".data, 0, 0, none⟩).scoreWc) =
    ((["apple".data].map (fun w =>
        (countExact w ((RChunk.mk "apple pie".data 0 0 none).content.map Char.toLower) : ℝ) * 3 +
          max 0 ((countOccs w ((RChunk.mk "apple pie".data 0 0 none).content.map Char.toLower) : ℝ) -
            (countExact w ((RChunk.mk "apple pie".data 0 0 none).content.map Char.toLower) : ℝ)) *
            (3 / 2))).sum +
      (if 1 < (["apple".data].filter
          (fun w => includesTok w ((RChunk.mk "apple pie".data 0 0 none).content.map Char.toLower))).length
       then ((["apple".data].filter
          (fun w => includesTok w
            ((RChunk.mk "apple pie".data 0 0 none).content.map Char.toLower))).length : ℝ) * 2
       else 0)) /
      Real.sqrt ((splitRuns isWs ((RChunk.mk "apple pie".data 0 0 none).content.map Char.toLower)).length) *
      (1 - ((0 : ℕ) : ℝ) / ((1 : ℕ) : ℝ) * (1 / 10)) :=
  ⟨by omega, scoreChunk_C2_formula ["apple".data] 1 0 (RChunk.mk "apple pie".data 0 0 none) (by omega)⟩

/-- Claim C2 counterexample: the claim as stated adds the bonus only
when more than one distinct query token occurs, with `matchedWords`
counting distinct tokens.  With the duplicated query "apple apple" and
chunk "apple", only one distinct token occurs, so the claimed formula
gives 6; the source counts the token list with multiplicity
(`uniqueWordsFound = 2 > 1`, bonus `2 * 2 = 4`), giving 10. -/
theorem scoreChunk_C2_distinct_cex :
    queryWordsOf "apple apple" = ["apple".data, "apple".data] ∧
    ((scoreChunk (queryWordsOf "apple apple") 1 0 ⟨"apple".data, 0, 0, none⟩).scoreNum : ℝ) /
      ((scoreChunk (queryWordsOf "apple apple") 1 0 ⟨"apple".data, 0, 0, none⟩).scoreDen *
        Real.sqrt (scoreChunk (queryWordsOf "apple apple") 1 0
          ⟨"apple".data, 0, 0, none⟩).scoreWc) = 10 ∧
    (((queryWordsOf "apple apple").map (fun w =>
        (countExact w (("apple".data : List Char).map Char.toLower) : ℝ) * 3 +
          max 0 ((countOccs w (("apple".data : List Char).map Char.toLower) : ℝ) -
            (countExact w (("apple".data : List Char).map Char.toLower) : ℝ)) * (3 / 2))).sum +
      (if 1 < ((queryWordsOf "apple apple").dedup.filter
          (fun w => includesTok w (("apple".data : List Char).map Char.toLower))).length
       then (((queryWordsOf "apple apple").dedup.filter
          (fun w => includesTok w (("apple".data : List Char).map Char.toLower))).length : ℝ) * 2
       else 0)) /
      Real.sqrt ((splitRuns isWs (("apple".data : List Char).map Char.toLower)).length) *
      (1 - (0 : ℝ) / (1 : ℝ) * (1 / 10)) = 6 ∧
    (10 : ℝ) ≠ 6 := by
  refine ⟨by decide, ?_, ?_, by norm_num⟩
  · have h1 : (scoreChunk (queryWordsOf "apple apple") 1 0
        ⟨"apple".data, 0, 0, none⟩).scoreNum = 200 := by decide
    have h2 : (scoreChunk (queryWordsOf "apple apple") 1 0
        ⟨"apple".data, 0, 0, none⟩).scoreDen = 20 := by decide
    have h3 : (scoreChunk (queryWordsOf "apple apple") 1 0
        ⟨"apple".data, 0, 0, none⟩).scoreWc = 1 := by decide
    rw [h1, h2, h3]
    norm_num
  · have hq : queryWordsOf "apple apple" = ["apple".data, "apple".data] := by decide
    set low := ("apple".data : List Char).map Char.toLower with hlow
    have he : countExact ("apple".data) low = 1 := by rw [hlow]; decide
    have ho : countOccs ("apple".data) low = 1 := by rw [hlow]; decide
    have hd : ((["apple".data, "apple".data] : List (List Char)).dedup.filter
        (fun w => includesTok w low)).length = 1 := by rw [hlow]; decide
    have hwc : (splitRuns isWs low).length = 1 := by rw [hlow]; decide
    rw [hq, hd, hwc]
    simp only [List.map_cons, List.map_nil, List.sum_cons, List.sum_nil]
    rw [he, ho]
    norm_num
